import Mathlib

/-!
Shallow embedding of the water-me growth simulation (src/main.rs).

The program procedurally generates an image by a randomized multi-seed
color-diffusion growth process.  Its two components are a `VecMap`
(an order-preserving keyed set with biased random removal, backed by a
parallel vector of keys and a hash map) and the `make_image` growth
engine (seeding, a main loop that pops a pending cell, commits or blends
its color into the finalized grid, and expands to grid neighbors with
coin-flip pruning, a smoothing gate, and distance-decayed diffusion).

Modelling decisions, each noted at its definition:
  * machine integers are `Nat`/`Int`; `u8` wrap-around is written with an
    explicit `% 256`;
  * Rust's `StdRng` is abstracted as an oracle stream of integers; each
    random draw (`gen_range`, `gen::<f64>`, one per byte of `gen::<[u8;3]>`)
    consumes one stream element and maps it into the requested range, so a
    fixed stream fixes the whole run;
  * the one floating-point expression (the diffusion-decay amplitude) is
    modelled by a four-constructor IEEE-754 value model (`F64`) that is
    exact on every case the verified claims exercise;
  * Rust panics (`%` by zero, sampling an empty range, `expect`, the
    `assert_eq!` in `is_empty`) are `Except.error`;
  * the unbounded `loop` is run on explicit fuel; exhausted fuel is
    `Except.ok none`, a completed run is `Except.ok (some grid)`.
-/

abbrev Color : Type := ℕ × ℕ × ℕ

abbrev Location : Type := ℕ × ℕ

/-- Pending frontier entry payload: the color and the distance (in growth
steps) from the originating seed.  Mirrors the `(Color, usize)` values stored
in `boundary: VecMap<Location, (Color, usize)>`. -/
abbrev Pending : Type := Color × ℕ

/-- Finalized grid `locations_to_colors: HashMap<Location, Color>`, modelled
as an association list with unique keys (maintained by the operations). -/
abbrev Grid : Type := List (Location × Color)

/-- Association-list lookup; models `HashMap::get` / `contains_key`. -/
def lookupA {K V : Type} [DecidableEq K] (k : K) : List (K × V) → Option V
  | [] => none
  | (k2, v) :: rest => if k = k2 then some v else lookupA k rest

/-- Association-list removal of the (unique) entry with the given key;
models `HashMap::remove` (dropping the returned value). -/
def removeA {K V : Type} [DecidableEq K] (k : K) : List (K × V) → List (K × V)
  | [] => []
  | (k2, v) :: rest => if k = k2 then rest else (k2, v) :: removeA k rest

/-- Association-list insertion that replaces any previous entry for the key;
models `HashMap::insert`'s overwrite semantics. -/
def insertA {K V : Type} [DecidableEq K] (k : K) (v : V) (m : List (K × V)) :
    List (K × V) :=
  (k, v) :: removeA k m

/-- Association-list value replacement at an existing key, in place; models
mutation through `HashMap::get_mut` / `Entry::and_modify`. -/
def setA {K V : Type} [DecidableEq K] (k : K) (v : V) : List (K × V) → List (K × V)
  | [] => []
  | (k2, v2) :: rest => if k = k2 then (k, v) :: rest else (k2, v2) :: setA k v rest

/-- Keys of an association list, in order. -/
def keysOf {K V : Type} (m : List (K × V)) : List K := m.map Prod.fst

/-- Oracle model of `StdRng`: an infinite stream of integers plus a cursor.
Each random draw consumes one stream element.  A fixed 64-bit seed in the
source determines a fixed draw sequence; here the stream plays that role. -/
structure Rng where
  stream : ℕ → ℤ
  pos : ℕ

/-- Consume one raw oracle value. -/
def Rng.next (r : Rng) : ℤ × Rng := (r.stream r.pos, ⟨r.stream, r.pos + 1⟩)

/-- Model of `rng.gen_range(lo..=hi)` over integers: panics (as the `rand`
crate does) when the range is empty, otherwise returns a value in
`[lo, hi]` determined by the next stream element. -/
def genRangeI (lo hi : ℤ) (r : Rng) : Except String (ℤ × Rng) :=
  if hi < lo then Except.error "cannot sample empty range"
  else
    let (n, r2) := r.next
    Except.ok (lo + n % (hi - lo + 1), r2)

/-- Model of `rng.gen::<f64>()` drawing a unit-interval value: the next
stream element is mapped into `[0,1)` with granularity 1/1000 (the exact
distribution is irrelevant; only comparisons against `fuzz` and `0.5` are
made by the source). -/
def genUnit (r : Rng) : ℚ × Rng :=
  let (n, r2) := r.next
  (((n % 1000 : ℤ) : ℚ) / 1000, r2)

/-- Model of drawing one random byte (one channel of `rng.gen::<[u8; 3]>()`). -/
def genByte (r : Rng) : ℕ × Rng :=
  let (n, r2) := r.next
  ((n % 256).toNat, r2)

/-- Order-preserving keyed set from src/main.rs lines 12-20: a vector of keys
(the insertion-order sequence) in parallel with a hash map of entries. -/
structure VecMap (K V : Type) where
  vec : List K
  map : List (K × V)

/-- Model of `VecMap::new`. -/
def VecMap.new (K V : Type) : VecMap K V := ⟨[], []⟩

/-- Model of `VecMap::insert` (src/main.rs lines 33-39):
`self.map.insert(key, value)` always stores `value` (overwriting any old
value) and returns the old value; the key is pushed onto `vec` only when the
old value was absent. -/
def VecMap.insert {K V : Type} [DecidableEq K] (s : VecMap K V) (key : K) (value : V) :
    Option V × VecMap K V :=
  let old_value := lookupA key s.map
  if old_value.isNone then (old_value, ⟨s.vec ++ [key], insertA key value s.map⟩)
  else (old_value, ⟨s.vec, insertA key value s.map⟩)

/-- Model of `VecMap::is_empty` (src/main.rs lines 40-43), including its
`assert_eq!(vec.is_empty(), map.is_empty())`, which panics on violation. -/
def VecMap.is_empty {K V : Type} (s : VecMap K V) : Except String Bool :=
  if s.vec.isEmpty = s.map.isEmpty then Except.ok s.vec.isEmpty
  else Except.error "assertion failed in is_empty"

/-- Model of `Vec::swap_remove(i)`: returns the element at index `i` after
replacing it by the last element and popping; `none` when out of bounds. -/
def swapRemove {K : Type} (l : List K) (i : ℕ) : Option (K × List K) :=
  match l[i]? with
  | none => none
  | some x => some (x, (l.set i (l.getLast?.getD x)).dropLast)

/-- Model of `VecMap::rand_remove` (src/main.rs lines 44-51): draws a uniform
index into `vec` (panicking when `vec` is empty, as `gen_range(0..0)` does),
overrides it with the last index when the fuzz draw succeeds, swap-removes
that key from `vec` and removes it from `map`. -/
def VecMap.rand_remove {K V : Type} [DecidableEq K] (s : VecMap K V) (rng : Rng)
    (fuzz : ℚ) : Except String (Option (K × V) × VecMap K V × Rng) :=
  match genRangeI 0 ((s.vec.length : ℤ) - 1) rng with
  | Except.error e => Except.error e
  | Except.ok (i0, rng1) =>
    let (u, rng2) := genUnit rng1
    let index := if u < fuzz then s.vec.length - 1 else i0.toNat
    match swapRemove s.vec index with
    | none => Except.error "swap_remove index out of bounds"
    | some (key, vec2) =>
      match lookupA key s.map with
      | none => Except.ok (none, ⟨vec2, s.map⟩, rng2)
      | some v => Except.ok (some (key, v), ⟨vec2, removeA key s.map⟩, rng2)

/-- Model of `VecMap::insert_modify` (src/main.rs lines 52-62): when the key
is present its value is modified in place; otherwise the entry is inserted
fresh and the key appended to the order sequence. -/
def VecMap.insert_modify {K V : Type} [DecidableEq K] (s : VecMap K V) (key : K)
    (value : V) (modify : V → V) : VecMap K V :=
  match lookupA key s.map with
  | some old_value => ⟨s.vec, setA key (modify old_value) s.map⟩
  | none => ⟨s.vec ++ [key], insertA key value s.map⟩

/-- Model of IEEE-754 binary64 values as they occur in the diffusion-decay
expression of src/main.rs lines 135-137: a finite value (held exactly as a
rational), the two infinities, or NaN. -/
inductive F64 : Type where
  | fin : ℚ → F64
  | inf : F64
  | neginf : F64
  | nan : F64
deriving DecidableEq

/-- Model of f64 division for finite operands, as used in
`-(steps as f64) / halving`: IEEE-754 division does not trap; a zero divisor
yields NaN (0/0) or a signed infinity. -/
def F64.fdiv : F64 → F64 → F64
  | F64.fin a, F64.fin b =>
    if b = 0 then (if a = 0 then F64.nan else if 0 < a then F64.inf else F64.neginf)
    else F64.fin (a / b)
  | _, _ => F64.nan

/-- Model of `2.0f64.powf x`: exact at NaN and the infinities
(`2^(-inf) = +0`, `2^(+inf) = +inf`) and at integer exponents, where the
result is the exact power of two.  A non-integer exponent (whose f64 value
is not exactly representable) is conservatively modelled as NaN; no verified
claim depends on the value of that case. -/
def F64.pow2 : F64 → F64
  | F64.nan => F64.nan
  | F64.inf => F64.inf
  | F64.neginf => F64.fin 0
  | F64.fin q => if q.den = 1 then F64.fin ((2 : ℚ) ^ q.num) else F64.nan

/-- Model of `(a as f64) * x` for a nonnegative integer-valued `a`:
IEEE-754 multiplication, including `0 * inf = NaN` and `a * NaN = NaN`. -/
def fmulFin (a : ℚ) : F64 → F64
  | F64.fin b => F64.fin (a * b)
  | F64.inf => if a = 0 then F64.nan else if 0 < a then F64.inf else F64.neginf
  | F64.neginf => if a = 0 then F64.nan else if 0 < a then F64.neginf else F64.inf
  | F64.nan => F64.nan

/-- Model of `x + (b as f64)`: IEEE-754 addition of a finite value. -/
def faddFin (x : F64) (b : ℚ) : F64 :=
  match x with
  | F64.fin a => F64.fin (a + b)
  | F64.inf => F64.inf
  | F64.neginf => F64.neginf
  | F64.nan => F64.nan

/-- Truncation of a rational toward zero, as in Rust's float-to-integer
`as` cast (`Int.div` is T-division). -/
def truncQ (q : ℚ) : ℤ := Int.tdiv q.num (q.den : ℤ)

/-- Model of `fdiffusion as i16`: Rust's saturating float-to-int cast —
NaN to 0, the infinities to the extreme representable values, finite values
truncated toward zero and clamped to the i16 range. -/
def F64.toI16 : F64 → ℤ
  | F64.nan => 0
  | F64.inf => 32767
  | F64.neginf => -32768
  | F64.fin q => max (-32768) (min 32767 (truncQ q))

/-- Wrapping `u8` subtraction `a - b` (release-mode semantics; every
configuration exercised by the claims has `b ≤ a < 256`, where this equals
plain subtraction). -/
def u8sub (a b : ℕ) : ℕ := (a + 256 - b) % 256

/-- Model of src/main.rs lines 135-137: the per-channel diffusion offset
range `((max - long) as f64 * 2.0f64.powf(-(steps as f64) / halving)
+ long as f64) as i16`. -/
def diffusionI16 (max long : ℕ) (halving : ℚ) (steps : ℕ) : ℤ :=
  (faddFin
    (fmulFin ((u8sub max long : ℕ) : ℚ)
      (F64.pow2 (F64.fdiv (F64.fin (-(steps : ℚ))) (F64.fin halving))))
    (long : ℚ)).toI16

/-- Per-channel blend from src/main.rs lines 97 and 151-153:
`c1 / 2 + c2 / 2 + (c1 & c2 & 1)` on `u8` (no overflow is possible for
inputs below 256, so no wrap-around is needed). -/
def blendChannel (c1 c2 : ℕ) : ℕ := c1 / 2 + c2 / 2 + (c1 &&& c2 &&& 1)

/-- Channel-wise color blend (`c.zip(color).map(...)` in the source). -/
def blendColor (c1 c2 : Color) : Color :=
  (blendChannel c1.1 c2.1, blendChannel c1.2.1 c2.2.1, blendChannel c1.2.2 c2.2.2)

/-- Clamp-and-cast of one new channel value from src/main.rs line 146:
`(c + off).clamp(0, 255) as u8`. -/
def clampChannel (x : ℤ) : ℕ := (max 0 (min 255 x)).toNat

/-- Merge closure passed to `insert_modify` in src/main.rs lines 150-155:
blend the pending color with the incoming one and average the distances
(the incoming entry has distance `steps + 1`). -/
def mergePending (new_color : Color) (steps : ℕ) : Pending → Pending
  | (old_color, old_steps) =>
    (blendColor old_color new_color, (old_steps + steps + 1) / 2)

/-- Commit step from src/main.rs lines 95-98:
`locations_to_colors.entry(location).and_modify(blend).or_insert(color)`. -/
def commitColor (grid : Grid) (location : Location) (color : Color) : Grid :=
  match lookupA location grid with
  | some c1 => setA location (blendColor c1 color) grid
  | none => insertA location color grid

/-- Neighbor offsets iterated by the expansion loop (src/main.rs line 99),
in source order. -/
def directions : List (ℤ × ℤ) := [(-1, 0), (0, -1), (1, 0), (0, 1)]

/-- Offsets `-smoothing..=smoothing` scanned by the smoothing gate
(empty when `smoothing < 0`). -/
def smoothingOffsets (smoothing : ℤ) : List ℤ :=
  (List.range (2 * smoothing + 1).toNat).map (fun i => -smoothing + (i : ℤ))

/-- Smoothing gate from src/main.rs lines 115-130: scan the cross/diagonal
pattern `(0,k), (k,0), (k,k), (-k,k)` around the neighbor for every offset
`k` in `-smoothing..=smoothing`; report whether some in-bounds scanned cell
is not yet finalized.  (The source's `break` leaves `found_empty` true, so
the double loop computes exactly this existential.) -/
def foundEmpty (grid : Grid) (size : ℕ) (nl : Location) (smoothing : ℤ) : Bool :=
  (smoothingOffsets smoothing).any fun off =>
    [((0 : ℤ), off), (off, 0), (off, off), (-off, off)].any fun dd =>
      let nr := dd.1 + (nl.1 : ℤ)
      let nc := dd.2 + (nl.2 : ℤ)
      if nr < 0 || (size : ℤ) ≤ nr || nc < 0 || (size : ℤ) ≤ nc then false
      else (lookupA (nr.toNat, nc.toNat) grid).isNone

/-- Configuration parameters of `make_image` (src/main.rs lines 65-73); the
random seed is replaced by the oracle stream passed separately. -/
structure Config where
  size : ℕ
  num_seeds : ℕ
  max : ℕ
  long : ℕ
  halving : ℚ
  smoothing : ℤ
  fuzz : ℚ

/-- Insert-or-merge tail of one neighbor expansion (src/main.rs lines
135-156): the three diffusion-decayed channel offsets are drawn, the new
color is the clamped parent color plus the offsets, and the neighbor is
pushed into the frontier through the merge path. -/
def expandInsert (cfg : Config) (new_location : Location) (color : Color)
    (steps : ℕ) (boundary : VecMap Location Pending) (rng : Rng) :
    Except String (VecMap Location Pending × Rng) :=
  match genRangeI (-(diffusionI16 cfg.max cfg.long cfg.halving steps))
      (diffusionI16 cfg.max cfg.long cfg.halving steps) rng with
  | Except.error e => Except.error e
  | Except.ok (o1, rng1) =>
    match genRangeI (-(diffusionI16 cfg.max cfg.long cfg.halving steps))
        (diffusionI16 cfg.max cfg.long cfg.halving steps) rng1 with
    | Except.error e => Except.error e
    | Except.ok (o2, rng2) =>
      match genRangeI (-(diffusionI16 cfg.max cfg.long cfg.halving steps))
          (diffusionI16 cfg.max cfg.long cfg.halving steps) rng2 with
      | Except.error e => Except.error e
      | Except.ok (o3, rng3) =>
        Except.ok
          (boundary.insert_modify new_location
            ((clampChannel ((color.1 : ℤ) + o1),
              clampChannel ((color.2.1 : ℤ) + o2),
              clampChannel ((color.2.2 : ℤ) + o3)), steps + 1)
            (mergePending
              (clampChannel ((color.1 : ℤ) + o1),
               clampChannel ((color.2.1 : ℤ) + o2),
               clampChannel ((color.2.2 : ℤ) + o3)) steps), rng3)

/-- One neighbor expansion of the popped cell (src/main.rs lines 99-157 body):
coin-flip skip (skip when the unit draw exceeds 0.5), bounds check,
already-finalized check with the smoothing gate, then the insert-or-merge
tail. -/
def expandDir (cfg : Config) (grid : Grid) (location : Location) (color : Color)
    (steps : ℕ) (acc : VecMap Location Pending × Rng) (dir : ℤ × ℤ) :
    Except String (VecMap Location Pending × Rng) :=
  if 1 / 2 < (genUnit acc.2).1 then Except.ok (acc.1, (genUnit acc.2).2)
  else if ((location.1 : ℤ) + dir.1 < 0 ∨ (cfg.size : ℤ) ≤ (location.1 : ℤ) + dir.1 ∨
      (location.2 : ℤ) + dir.2 < 0 ∨ (cfg.size : ℤ) ≤ (location.2 : ℤ) + dir.2) then
    Except.ok (acc.1, (genUnit acc.2).2)
  else if (lookupA (((location.1 : ℤ) + dir.1).toNat, ((location.2 : ℤ) + dir.2).toNat)
        grid).isSome = true ∧
      foundEmpty grid cfg.size
        (((location.1 : ℤ) + dir.1).toNat, ((location.2 : ℤ) + dir.2).toNat)
        cfg.smoothing = false then
    Except.ok (acc.1, (genUnit acc.2).2)
  else
    expandInsert cfg
      (((location.1 : ℤ) + dir.1).toNat, ((location.2 : ℤ) + dir.2).toNat)
      color steps acc.1 (genUnit acc.2).2

/-- Expansion to all four neighbors, in source order. -/
def expandAll (cfg : Config) (grid : Grid) (location : Location) (color : Color)
    (steps : ℕ) (boundary : VecMap Location Pending) (rng : Rng) :
    Except String (VecMap Location Pending × Rng) :=
  List.foldlM (expandDir cfg grid location color steps) (boundary, rng) directions

/-- Loop-carried state of the main loop of `make_image`. -/
structure LoopState where
  grid : Grid
  boundary : VecMap Location Pending
  rng : Rng
  count : ℕ

/-- One iteration of the main loop (src/main.rs lines 84-158): the progress
check `count % ((size * size) / 10)` (which panics when the divisor is zero),
the emptiness check (with its internal assertion) that breaks the loop, the
pop via `rand_remove` with its `expect`, the color commit, and the four
neighbor expansions.  `Sum.inr` is the loop breaking with the finished grid. -/
def loopStep (cfg : Config) (st : LoopState) : Except String (LoopState ⊕ Grid) :=
  if (cfg.size * cfg.size) / 10 = 0 then
    Except.error "attempt to calculate the remainder with a divisor of zero"
  else
    match st.boundary.is_empty with
    | Except.error e => Except.error e
    | Except.ok true => Except.ok (Sum.inr st.grid)
    | Except.ok false =>
      match VecMap.rand_remove st.boundary st.rng cfg.fuzz with
      | Except.error e => Except.error e
      | Except.ok (none, _, _) => Except.error "Checked nonempty"
      | Except.ok (some (location, (color, steps)), boundary2, rng2) =>
        match expandAll cfg (commitColor st.grid location color) location color steps
            boundary2 rng2 with
        | Except.error e => Except.error e
        | Except.ok (boundary3, rng3) =>
          Except.ok (Sum.inl
            ⟨commitColor st.grid location color, boundary3, rng3, st.count + 1⟩)

/-- The main loop run on explicit fuel (the Rust `loop` is unbounded;
`Except.ok none` marks exhausted fuel, `Except.ok (some grid)` a run in
which the frontier drained and the loop broke). -/
def runLoop (cfg : Config) : ℕ → LoopState → Except String (Option Grid)
  | 0, _ => Except.ok none
  | fuel + 1, st =>
    match loopStep cfg st with
    | Except.error e => Except.error e
    | Except.ok (Sum.inr grid) => Except.ok (some grid)
    | Except.ok (Sum.inl st2) => runLoop cfg fuel st2

/-- Placement of one seed (src/main.rs lines 78-82 loop body): a uniformly
random in-bounds location, a random color, distance 0, inserted with the
plain `insert` (a colliding seed silently overwrites the stored entry). -/
def placeSeedsStep (size : ℕ) (bd : VecMap Location Pending) (rng : Rng) :
    Except String (VecMap Location Pending × Rng) :=
  match genRangeI 0 ((size : ℤ) - 1) rng with
  | Except.error e => Except.error e
  | Except.ok (r0, rng1) =>
    match genRangeI 0 ((size : ℤ) - 1) rng1 with
    | Except.error e => Except.error e
    | Except.ok (c0, rng2) =>
      let (b1, rng3) := genByte rng2
      let (b2, rng4) := genByte rng3
      let (b3, rng5) := genByte rng4
      Except.ok ((bd.insert (r0.toNat, c0.toNat) ((b1, b2, b3), 0)).2, rng5)

/-- Placement of all `num_seeds` seeds. -/
def placeSeeds (size : ℕ) : ℕ → VecMap Location Pending → Rng →
    Except String (VecMap Location Pending × Rng)
  | 0, bd, rng => Except.ok (bd, rng)
  | n + 1, bd, rng =>
    match placeSeedsStep size bd rng with
    | Except.error e => Except.error e
    | Except.ok (bd1, rng1) => placeSeeds size n bd1 rng1

/-- The whole growth simulation `make_image` (src/main.rs lines 65-164),
from seeding to the drained frontier, returning the finalized grid (the
final rasterization into the image buffer is an external collaborator and
is not part of the core). -/
def makeImage (cfg : Config) (stream : ℕ → ℤ) (fuel : ℕ) :
    Except String (Option Grid) :=
  match placeSeeds cfg.size cfg.num_seeds (VecMap.new Location Pending) ⟨stream, 0⟩ with
  | Except.error e => Except.error e
  | Except.ok (boundary, rng1) => runLoop cfg fuel ⟨[], boundary, rng1, 0⟩

/- Batteries marks the rational-number arithmetic irreducible; for concrete
evaluation of the embedding (witness and counterexample runs checked by
`decide`/`rfl`) these operations must reduce. -/
attribute [local semireducible] Rat.mul Rat.inv Rat.add Rat.sub

/-! ### Association-list lemmas -/

theorem keysOf_nil {K V : Type} : keysOf ([] : List (K × V)) = [] := rfl

theorem keysOf_cons {K V : Type} (p : K × V) (tl : List (K × V)) :
    keysOf (p :: tl) = p.1 :: keysOf tl := rfl

theorem lookupA_eq_none_iff {K V : Type} [DecidableEq K] (k : K) (m : List (K × V)) :
    lookupA k m = none ↔ k ∉ keysOf m := by
  induction m with
  | nil => simp [lookupA, keysOf_nil]
  | cons hd tl ih =>
    obtain ⟨k2, v⟩ := hd
    by_cases h : k = k2
    · subst h; simp [lookupA, keysOf_cons]
    · simp [lookupA, keysOf_cons, h, ih]

theorem lookupA_isSome_iff {K V : Type} [DecidableEq K] (k : K) (m : List (K × V)) :
    (lookupA k m).isSome = true ↔ k ∈ keysOf m := by
  rcases ho : lookupA k m with _ | v
  · rw [lookupA_eq_none_iff] at ho
    simp [ho]
  · have : lookupA k m ≠ none := by simp [ho]
    rw [ne_eq, lookupA_eq_none_iff, not_not] at this
    simp [this]

theorem removeA_eq_of_not_mem {K V : Type} [DecidableEq K] (k : K) (m : List (K × V))
    (h : k ∉ keysOf m) : removeA k m = m := by
  induction m with
  | nil => rfl
  | cons hd tl ih =>
    obtain ⟨k2, v⟩ := hd
    rw [keysOf_cons, List.mem_cons] at h
    push_neg at h
    simp [removeA, h.1, ih h.2]

theorem keysOf_perm_removeA {K V : Type} [DecidableEq K] (k : K) (m : List (K × V))
    (h : k ∈ keysOf m) : (keysOf m).Perm (k :: keysOf (removeA k m)) := by
  induction m with
  | nil => simp [keysOf_nil] at h
  | cons hd tl ih =>
    obtain ⟨k2, v⟩ := hd
    by_cases hk : k = k2
    · subst hk
      simp [removeA, keysOf_cons]
    · rw [keysOf_cons, List.mem_cons] at h
      have h2 : k ∈ keysOf tl := h.resolve_left hk
      have hp := ih h2
      simp only [removeA, if_neg hk, keysOf_cons]
      exact (hp.cons k2).trans (List.Perm.swap k k2 _)

theorem lookupA_removeA_ne {K V : Type} [DecidableEq K] (k' k : K) (m : List (K × V))
    (h : k' ≠ k) : lookupA k' (removeA k m) = lookupA k' m := by
  induction m with
  | nil => rfl
  | cons hd tl ih =>
    obtain ⟨k2, v⟩ := hd
    by_cases hk : k = k2
    · subst hk; simp [removeA, lookupA, h]
    · by_cases h2 : k' = k2 <;> simp [removeA, hk, lookupA, h2, ih]

theorem lookupA_insertA {K V : Type} [DecidableEq K] (k' k : K) (v : V) (m : List (K × V)) :
    lookupA k' (insertA k v m) = if k' = k then some v else lookupA k' m := by
  by_cases h : k' = k
  · subst h; simp [insertA, lookupA]
  · simp [insertA, lookupA, h, lookupA_removeA_ne k' k m h]

theorem keysOf_setA {K V : Type} [DecidableEq K] (k : K) (v : V) (m : List (K × V)) :
    keysOf (setA k v m) = keysOf m := by
  induction m with
  | nil => rfl
  | cons hd tl ih =>
    obtain ⟨k2, v2⟩ := hd
    by_cases h : k = k2
    · subst h; simp [setA, keysOf_cons]
    · simp [setA, h, keysOf_cons, ih]

theorem lookupA_setA {K V : Type} [DecidableEq K] (k' k : K) (v : V) (m : List (K × V))
    (h : k' ≠ k) : lookupA k' (setA k v m) = lookupA k' m := by
  induction m with
  | nil => rfl
  | cons hd tl ih =>
    obtain ⟨k2, v2⟩ := hd
    by_cases hk : k = k2
    · subst hk; simp [setA, lookupA, h]
    · by_cases h2 : k' = k2 <;> simp [setA, hk, lookupA, h2, ih]

theorem lookupA_setA_self {K V : Type} [DecidableEq K] (k : K) (v : V) (m : List (K × V))
    (h : k ∈ keysOf m) : lookupA k (setA k v m) = some v := by
  induction m with
  | nil => simp [keysOf_nil] at h
  | cons hd tl ih =>
    obtain ⟨k2, v2⟩ := hd
    by_cases hk : k = k2
    · subst hk; simp [setA, lookupA]
    · rw [keysOf_cons, List.mem_cons] at h
      simp [setA, hk, lookupA, ih (h.resolve_left hk)]

theorem keysOf_insertA {K V : Type} [DecidableEq K] (k : K) (v : V) (m : List (K × V)) :
    keysOf (insertA k v m) = k :: keysOf (removeA k m) := rfl

/-! ### swapRemove lemmas -/

theorem perm_getLast_cons_dropLast {K : Type} (u : List K) (h : u ≠ []) :
    u.Perm (u.getLast h :: u.dropLast) := by
  conv_lhs => rw [← List.dropLast_append_getLast h]
  exact List.perm_append_comm

theorem swapRemove_of_mem {K : Type} (l : List K) (i : ℕ) (x : K)
    (h : l[i]? = some x) :
    swapRemove l i = some (x, (l.set i (l.getLast?.getD x)).dropLast) := by
  simp [swapRemove, h]

theorem swapRemove_perm {K : Type} (l : List K) (i : ℕ) (x : K) (l2 : List K)
    (h : swapRemove l i = some (x, l2)) : l.Perm (x :: l2) := by
  induction l generalizing i x l2 with
  | nil => simp [swapRemove] at h
  | cons a t ih =>
    rcases hx : (a :: t)[i]? with _ | x0
    · simp [swapRemove, hx] at h
    · rw [swapRemove_of_mem (a :: t) i x0 hx] at h
      simp only [Option.some.injEq, Prod.mk.injEq] at h
      obtain ⟨hxx, hl2⟩ := h
      subst hxx
      subst hl2
      cases i with
      | zero =>
        rw [List.getElem?_cons_zero, Option.some.injEq] at hx
        subst hx
        match t with
        | [] => simp
        | b :: t2 =>
          have hbt : (b :: t2) ≠ [] := by simp
          have hy : (a :: b :: t2).getLast?.getD a = (b :: t2).getLast hbt := by
            rw [List.getLast?_cons_cons, List.getLast?_eq_getLast (b :: t2) hbt]
            rfl
          rw [hy]
          simp only [List.set_cons_zero, List.dropLast_cons₂]
          exact ((perm_getLast_cons_dropLast (b :: t2) hbt).cons a)
      | succ j =>
        rw [List.getElem?_cons_succ] at hx
        rcases t with _ | ⟨b, t2⟩
        · simp at hx
        · have hstep := swapRemove_of_mem (b :: t2) j x0 hx
          have hperm := ih j x0 _ hstep
          have hy : (a :: b :: t2).getLast?.getD x0 = (b :: t2).getLast?.getD x0 := by
            rw [List.getLast?_cons_cons]
          rw [hy]
          have hset : (a :: b :: t2).set (j + 1) ((b :: t2).getLast?.getD x0) =
              a :: (b :: t2).set j ((b :: t2).getLast?.getD x0) := rfl
          rw [hset]
          have hdrop : (a :: (b :: t2).set j ((b :: t2).getLast?.getD x0)).dropLast =
              a :: ((b :: t2).set j ((b :: t2).getLast?.getD x0)).dropLast := by
            cases j with
            | zero => simp only [List.set_cons_zero, List.dropLast_cons₂]
            | succ jj => simp only [List.set_cons_succ, List.dropLast_cons₂]
          rw [hdrop]
          exact ((hperm.cons a).trans (List.Perm.swap x0 a _))

theorem swapRemove_mem {K : Type} (l : List K) (i : ℕ) (x : K) (l2 : List K)
    (h : swapRemove l i = some (x, l2)) : x ∈ l :=
  (swapRemove_perm l i x l2 h).mem_iff.mpr (List.mem_cons_self x l2)

theorem swapRemove_subset {K : Type} (l : List K) (i : ℕ) (x : K) (l2 : List K)
    (h : swapRemove l i = some (x, l2)) : ∀ a ∈ l2, a ∈ l := by
  intro a ha
  exact (swapRemove_perm l i x l2 h).mem_iff.mpr (List.mem_cons_of_mem x ha)

theorem swapRemove_nodup {K : Type} (l : List K) (i : ℕ) (x : K) (l2 : List K)
    (h : swapRemove l i = some (x, l2)) (hn : l.Nodup) : l2.Nodup ∧ x ∉ l2 := by
  have h2 := ((swapRemove_perm l i x l2 h).nodup_iff).mp hn
  rw [List.nodup_cons] at h2
  exact ⟨h2.2, h2.1⟩

/-! ### Random-draw lemmas -/

theorem genRangeI_of_le (lo hi : ℤ) (r : Rng) (h : lo ≤ hi) :
    genRangeI lo hi r =
      Except.ok (lo + (r.stream r.pos) % (hi - lo + 1), ⟨r.stream, r.pos + 1⟩) := by
  simp [genRangeI, Rng.next, not_lt.mpr h]

theorem genRangeI_bounds (lo hi v : ℤ) (r r2 : Rng)
    (h : genRangeI lo hi r = Except.ok (v, r2)) : lo ≤ v ∧ v ≤ hi := by
  by_cases hlt : hi < lo
  · simp [genRangeI, hlt] at h
  · rw [genRangeI_of_le lo hi r (not_lt.mp hlt)] at h
    simp only [Except.ok.injEq, Prod.mk.injEq] at h
    obtain ⟨hv, -⟩ := h
    have h0 : (0 : ℤ) < hi - lo + 1 := by omega
    have h1 := Int.emod_nonneg (r.stream r.pos) (by omega : hi - lo + 1 ≠ 0)
    have h2 := Int.emod_lt_of_pos (r.stream r.pos) h0
    omega

/-! ### Diffusion-amplitude lemmas -/

theorem truncQ_nonneg (q : ℚ) (h : 0 ≤ q) : 0 ≤ truncQ q :=
  Int.tdiv_nonneg (Rat.num_nonneg.mpr h) (by positivity)

theorem diffusionI16_nonneg (max long : ℕ) (halving : ℚ) (steps : ℕ) :
    0 ≤ diffusionI16 max long halving steps := by
  unfold diffusionI16
  set P := F64.pow2 (F64.fdiv (F64.fin (-(steps : ℚ))) (F64.fin halving)) with hP
  have hPcases : P = F64.nan ∨ P = F64.inf ∨ ∃ q : ℚ, 0 ≤ q ∧ P = F64.fin q := by
    rw [hP]
    rcases F64.fdiv (F64.fin (-(steps : ℚ))) (F64.fin halving) with q | _ | _ | _
    · by_cases hd : q.den = 1
      · exact Or.inr (Or.inr ⟨(2 : ℚ) ^ q.num, by positivity, by simp [F64.pow2, hd]⟩)
      · exact Or.inl (by simp [F64.pow2, hd])
    · exact Or.inr (Or.inl rfl)
    · exact Or.inr (Or.inr ⟨0, le_refl 0, rfl⟩)
    · exact Or.inl rfl
  set m : ℚ := ((u8sub max long : ℕ) : ℚ) with hm
  have hm0 : 0 ≤ m := by positivity
  rcases hPcases with h | h | ⟨q, hq, h⟩ <;> rw [h]
  · simp [fmulFin, faddFin, F64.toI16]
  · by_cases hz : m = 0
    · simp [fmulFin, hz, faddFin, F64.toI16]
    · have hpos : 0 < m := lt_of_le_of_ne hm0 (Ne.symm hz)
      simp [fmulFin, hz, hpos, faddFin, F64.toI16]
  · simp only [fmulFin, faddFin, F64.toI16]
    have h1 : 0 ≤ m * q + (long : ℚ) := by positivity
    have h2 : 0 ≤ truncQ (m * q + (long : ℚ)) := truncQ_nonneg _ h1
    have h3 : (0 : ℤ) ≤ min 32767 (truncQ (m * q + (long : ℚ))) :=
      le_min (by norm_num) h2
    exact le_trans h3 (le_max_right _ _)

theorem diffusionI16_zero_zero (halving : ℚ) (steps : ℕ) :
    diffusionI16 0 0 halving steps = 0 := by
  unfold diffusionI16
  have hz : u8sub 0 0 = 0 := by simp [u8sub]
  rw [hz]
  rcases F64.fdiv (F64.fin (-(steps : ℚ))) (F64.fin halving) with q | _ | _ | _
  · by_cases hd : q.den = 1 <;>
      simp [F64.pow2, hd, fmulFin, faddFin, F64.toI16, truncQ]
  · simp [F64.pow2, fmulFin, faddFin, F64.toI16]
  · simp [F64.pow2, fmulFin, faddFin, F64.toI16, truncQ]
  · simp [F64.pow2, fmulFin, faddFin, F64.toI16]

/-! ### VecMap well-formedness -/

/-- Well-formedness of a `VecMap`: the insertion-order vector has no
duplicate keys and is a permutation of the map's key list (hence the two
sides have the same members and the same size). -/
def VecMap.WF {K V : Type} (s : VecMap K V) : Prop :=
  s.vec.Nodup ∧ s.vec.Perm (keysOf s.map)

theorem VecMap.WF.length_eq {K V : Type} {s : VecMap K V} (h : s.WF) :
    s.vec.length = s.map.length := by
  have h2 := h.2.length_eq
  simpa [keysOf] using h2

theorem VecMap.WF.mem_keys {K V : Type} {s : VecMap K V} (h : s.WF) (k : K) :
    k ∈ s.vec ↔ k ∈ keysOf s.map := h.2.mem_iff

theorem vecMapWF_new {K V : Type} [DecidableEq K] : (VecMap.new K V).WF :=
  ⟨List.nodup_nil, List.Perm.refl _⟩

theorem vecMapWF_insert {K V : Type} [DecidableEq K] (s : VecMap K V) (k : K) (v : V)
    (h : s.WF) : (s.insert k v).2.WF := by
  unfold VecMap.insert
  rcases ho : lookupA k s.map with _ | old
  · have hk : k ∉ keysOf s.map := (lookupA_eq_none_iff k s.map).mp ho
    have hkv : k ∉ s.vec := fun hm => hk ((h.mem_keys k).mp hm)
    simp only [ho, Option.isNone_none, if_true]
    constructor
    · have hp : (s.vec ++ [k]).Perm (k :: s.vec) := List.perm_append_comm
      rw [hp.nodup_iff, List.nodup_cons]
      exact ⟨hkv, h.1⟩
    · rw [keysOf_insertA, removeA_eq_of_not_mem k _ hk]
      have hp : (s.vec ++ [k]).Perm (k :: s.vec) := List.perm_append_comm
      exact hp.trans (h.2.cons k)
  · have hk : k ∈ keysOf s.map := by
      rw [← lookupA_isSome_iff, ho]
      rfl
    simp only [ho, Option.isNone_some, Bool.false_eq_true, if_false]
    refine ⟨h.1, ?_⟩
    rw [keysOf_insertA]
    exact h.2.trans (keysOf_perm_removeA k s.map hk)

theorem vecMapWF_insert_modify {K V : Type} [DecidableEq K] (s : VecMap K V) (k : K)
    (v : V) (f : V → V) (h : s.WF) : (s.insert_modify k v f).WF := by
  unfold VecMap.insert_modify
  rcases ho : lookupA k s.map with _ | old
  · have hk : k ∉ keysOf s.map := (lookupA_eq_none_iff k s.map).mp ho
    have hkv : k ∉ s.vec := fun hm => hk ((h.mem_keys k).mp hm)
    constructor
    · have hp : (s.vec ++ [k]).Perm (k :: s.vec) := List.perm_append_comm
      rw [hp.nodup_iff, List.nodup_cons]
      exact ⟨hkv, h.1⟩
    · rw [keysOf_insertA, removeA_eq_of_not_mem k _ hk]
      have hp : (s.vec ++ [k]).Perm (k :: s.vec) := List.perm_append_comm
      exact hp.trans (h.2.cons k)
  · exact ⟨h.1, by rw [keysOf_setA]; exact h.2⟩

theorem vecMapWF_rand_remove {K V : Type} [DecidableEq K] (s : VecMap K V) (rng : Rng)
    (fuzz : ℚ) (res : Option (K × V)) (s2 : VecMap K V) (rng2 : Rng) (h : s.WF)
    (hr : s.rand_remove rng fuzz = Except.ok (res, s2, rng2)) : s2.WF := by
  unfold VecMap.rand_remove at hr
  rcases hg : genRangeI 0 ((s.vec.length : ℤ) - 1) rng with e | ⟨i0, rng1⟩
  · rw [hg] at hr
    exact absurd hr (by simp)
  · rw [hg] at hr
    simp only at hr
    rcases hsw : swapRemove s.vec
        (if (genUnit rng1).1 < fuzz then s.vec.length - 1 else i0.toNat) with _ | ⟨key, vec2⟩
    · rw [hsw] at hr
      exact absurd hr (by simp)
    · rw [hsw] at hr
      simp only at hr
      have hperm := swapRemove_perm _ _ _ _ hsw
      have hnd := swapRemove_nodup _ _ _ _ hsw h.1
      have hmemv : key ∈ s.vec := swapRemove_mem _ _ _ _ hsw
      have hmemk : key ∈ keysOf s.map := (h.mem_keys key).mp hmemv
      rcases hlk : lookupA key s.map with _ | v
      · rw [lookupA_eq_none_iff] at hlk
        exact absurd hmemk hlk
      · rw [hlk] at hr
        simp only [Except.ok.injEq, Prod.mk.injEq] at hr
        obtain ⟨-, hs2, -⟩ := hr
        subst hs2
        refine ⟨hnd.1, ?_⟩
        have h1 : (key :: vec2).Perm (keysOf s.map) := hperm.symm.trans h.2
        have h2 : (key :: vec2).Perm (key :: keysOf (removeA key s.map)) :=
          h1.trans (keysOf_perm_removeA key s.map hmemk)
        exact h2.cons_inv

/-- Sequences of the three frontier operations starting from `VecMap::new`:
exactly the states the Growth Engine's main loop can put the Frontier Set
into. -/
inductive VecMap.Reachable {K V : Type} [DecidableEq K] : VecMap K V → Prop where
  | new : VecMap.Reachable (VecMap.new K V)
  | insert (s : VecMap K V) (k : K) (v : V) :
      VecMap.Reachable s → VecMap.Reachable (s.insert k v).2
  | insert_modify (s : VecMap K V) (k : K) (v : V) (f : V → V) :
      VecMap.Reachable s → VecMap.Reachable (s.insert_modify k v f)
  | rand_remove (s : VecMap K V) (rng : Rng) (fuzz : ℚ) (res : Option (K × V))
      (s2 : VecMap K V) (rng2 : Rng) : VecMap.Reachable s →
      s.rand_remove rng fuzz = Except.ok (res, s2, rng2) → VecMap.Reachable s2

theorem VecMap.Reachable.wf {K V : Type} [DecidableEq K] {s : VecMap K V}
    (h : s.Reachable) : s.WF := by
  induction h with
  | new => exact vecMapWF_new
  | insert s k v _ ih => exact vecMapWF_insert s k v ih
  | insert_modify s k v f _ ih => exact vecMapWF_insert_modify s k v f ih
  | rand_remove s rng fuzz res s2 rng2 _ hr ih =>
      exact vecMapWF_rand_remove s rng fuzz res s2 rng2 ih hr

theorem vecMap_rand_remove_some {K V : Type} [DecidableEq K] (s : VecMap K V)
    (rng : Rng) (fuzz : ℚ) (hWF : s.WF) (hne : s.vec ≠ []) :
    ∃ k v s2 rng2, s.rand_remove rng fuzz = Except.ok (some (k, v), s2, rng2) := by
  have hlen : 1 ≤ s.vec.length := List.length_pos.mpr hne
  have hg := genRangeI_of_le 0 ((s.vec.length : ℤ) - 1) rng (by omega)
  unfold VecMap.rand_remove
  rw [hg]
  simp only
  have hmod1 := Int.emod_nonneg (rng.stream rng.pos)
    (show ((s.vec.length : ℤ) - 1 - 0 + 1) ≠ 0 by omega)
  have hmod2 := Int.emod_lt_of_pos (rng.stream rng.pos)
    (show (0 : ℤ) < (s.vec.length : ℤ) - 1 - 0 + 1 by omega)
  have hidx : (if (genUnit ⟨rng.stream, rng.pos + 1⟩).1 < fuzz then s.vec.length - 1
      else ((0 : ℤ) + rng.stream rng.pos % ((s.vec.length : ℤ) - 1 - 0 + 1)).toNat) <
      s.vec.length := by
    split
    · omega
    · omega
  rcases hget : s.vec[(if (genUnit ⟨rng.stream, rng.pos + 1⟩).1 < fuzz then
      s.vec.length - 1
      else ((0 : ℤ) + rng.stream rng.pos % ((s.vec.length : ℤ) - 1 - 0 + 1)).toNat)]?
      with _ | x
  · rw [List.getElem?_eq_none_iff] at hget
    omega
  · rw [swapRemove_of_mem s.vec _ x hget]
    have hmemv : x ∈ s.vec := swapRemove_mem s.vec _ x _ (swapRemove_of_mem s.vec _ x hget)
    have hmemk : x ∈ keysOf s.map := (hWF.mem_keys x).mp hmemv
    rcases hlk : lookupA x s.map with _ | v
    · rw [lookupA_eq_none_iff] at hlk
      exact absurd hmemk hlk
    · simp only [hlk]
      exact ⟨x, v, _, _, rfl⟩

/-! ### Claim theorems: the Frontier Set operations -/

/-- Claim C1 (amended): for every Frontier Set state, `insert(location, state)`
on an already-present location returns `Some(old_state)` but OVERWRITES the
stored value with the new state (Rust's `HashMap::insert` replaces), while the
insertion-order sequence does not grow; on an absent location it stores the
entry, appends the location to the order sequence, and returns `None`. -/
theorem vecmap_insert_spec {K V : Type} [DecidableEq K] (s : VecMap K V) (k : K)
    (v : V) :
    (s.insert k v).1 = lookupA k s.map ∧
    lookupA k (s.insert k v).2.map = some v ∧
    (s.insert k v).2.vec =
      (if (lookupA k s.map).isSome then s.vec else s.vec ++ [k]) := by
  unfold VecMap.insert
  rcases ho : lookupA k s.map with _ | old <;>
    simp [ho, lookupA_insertA]

/-- Claim C1 counterexample: inserting at an already-present key does
overwrite the stored value — starting from the state with entry `0 ↦ 10`,
`insert 0 20` returns `Some 10` yet the stored value afterwards is `20`, not
the old `10` the claim says is kept. -/
theorem vecmap_insert_overwrites_cex :
    ((⟨[0], [(0, 10)]⟩ : VecMap ℕ ℕ).insert 0 20).1 = some 10 ∧
    lookupA 0 ((⟨[0], [(0, 10)]⟩ : VecMap ℕ ℕ).insert 0 20).2.map = some 20 ∧
    lookupA 0 ((⟨[0], [(0, 10)]⟩ : VecMap ℕ ℕ).insert 0 20).2.map ≠ some 10 := by
  decide

/-- Claim C2 (amended): on a well-formed Frontier Set, `rand_remove` never
returns `None`: on an empty set it panics (`gen_range` on the empty range
`0..0`) instead of returning `None`, and on a non-empty set it always returns
`Some` entry. -/
theorem rand_remove_never_none {K V : Type} [DecidableEq K] (s : VecMap K V)
    (rng : Rng) (fuzz : ℚ) (hWF : s.WF) :
    (s.vec = [] →
      s.rand_remove rng fuzz = Except.error "cannot sample empty range") ∧
    (s.vec ≠ [] →
      ∃ k v s2 rng2,
        s.rand_remove rng fuzz = Except.ok (some (k, v), s2, rng2)) := by
  constructor
  · intro hv
    unfold VecMap.rand_remove
    rw [hv]
    simp [genRangeI]
  · intro hne
    exact vecMap_rand_remove_some s rng fuzz hWF hne

/-- Claim C2 witness: the single-entry state `{5 ↦ 7}` is well-formed and
non-empty, and `rand_remove` on it returns `Some` entry. -/
theorem rand_remove_never_none_witness :
    ∃ k v s2 rng2,
      (⟨[5], [(5, 7)]⟩ : VecMap ℕ ℕ).rand_remove ⟨fun _ => 0, 0⟩ 0 =
        Except.ok (some (k, v), s2, rng2) :=
  (rand_remove_never_none (⟨[5], [(5, 7)]⟩ : VecMap ℕ ℕ) ⟨fun _ => 0, 0⟩ 0
    ⟨by decide, by decide⟩).2 (by decide)

/-- Claim C2 counterexample: on the empty Frontier Set, `rand_remove` does not
return `None` — it panics sampling the empty index range `0..0`. -/
theorem rand_remove_empty_panics_cex :
    (VecMap.new ℕ ℕ).rand_remove ⟨fun _ => 0, 0⟩ 0 =
      Except.error "cannot sample empty range" := rfl

/-- Claim C4: whenever a popped cell's location is already finalized, the
commit path replaces the stored color by the channel-wise blend
`c1 / 2 + c2 / 2 + (c1 & c2 & 1)`; the merge closure used for an
already-pending frontier neighbor applies the same blend; and the blend of
channels 200 and 50 is 125 while the blend of 255 and 1 is 128. -/
theorem blend_formula_spec :
    (∀ (grid : Grid) (loc : Location) (c c1 : Color), lookupA loc grid = some c1 →
      commitColor grid loc c = setA loc (blendColor c1 c) grid) ∧
    (∀ (nc : Color) (steps : ℕ) (oc : Color) (os : ℕ),
      (mergePending nc steps (oc, os)).1 = blendColor oc nc) ∧
    (∀ c1 c2 : ℕ, blendChannel c1 c2 = c1 / 2 + c2 / 2 + (c1 &&& c2 &&& 1)) ∧
    blendChannel 200 50 = 125 ∧ blendChannel 255 1 = 128 := by
  refine ⟨?_, ?_, ?_, by decide, by decide⟩
  · intro grid loc c c1 h
    simp [commitColor, h]
  · intro nc steps oc os
    rfl
  · intro c1 c2
    rfl

/-- Claim C4 witness: committing color (50, 50, 1) at a location already
holding (200, 200, 255) stores the blend, which is (125, 125, 128). -/
theorem blend_formula_spec_witness :
    commitColor [((0, 0), (200, 200, 255))] (0, 0) (50, 50, 1) =
      setA (0, 0) (blendColor (200, 200, 255) (50, 50, 1))
        [((0, 0), (200, 200, 255))] ∧
    blendColor (200, 200, 255) (50, 50, 1) = (125, 125, 128) :=
  ⟨blend_formula_spec.1 [((0, 0), (200, 200, 255))] (0, 0) (50, 50, 1)
    (200, 200, 255) (by decide), by decide⟩

/-- Claim C6: after any sequence of `insert`, `insert_modify` and
`rand_remove` operations starting from `VecMap::new` — in particular at every
point of the main loop, whose frontier is manipulated only through these
operations — the length of the insertion-order sequence equals the number of
keyed entries and no key occurs twice in the order sequence. -/
theorem frontier_invariant {K V : Type} [DecidableEq K] (s : VecMap K V)
    (h : s.Reachable) : s.vec.length = s.map.length ∧ s.vec.Nodup :=
  ⟨h.wf.length_eq, h.wf.1⟩

/-- Claim C6 witness: the state reached by inserting one seed entry into a
fresh frontier satisfies the invariant. -/
theorem frontier_invariant_witness :
    ((VecMap.new Location Pending).insert (0, 0) ((1, 2, 3), 0)).2.vec.length =
      ((VecMap.new Location Pending).insert (0, 0) ((1, 2, 3), 0)).2.map.length ∧
    ((VecMap.new Location Pending).insert (0, 0) ((1, 2, 3), 0)).2.vec.Nodup :=
  frontier_invariant _
    (VecMap.Reachable.insert (VecMap.new Location Pending) (0, 0) ((1, 2, 3), 0)
      VecMap.Reachable.new)

/-! ### Claim theorems: diffusion decay and halving = 0 -/

theorem truncQ_eq_floor_of_nonneg (q : ℚ) (h : 0 ≤ q) : truncQ q = ⌊q⌋ := by
  rw [truncQ, Int.tdiv_eq_ediv (Rat.num_nonneg.mpr h) (by positivity), Rat.floor_def]

theorem truncQ_natCast (n : ℕ) : truncQ ((n : ℕ) : ℚ) = (n : ℤ) := by
  simp [truncQ, Rat.num_natCast, Rat.den_natCast]

/-- Claim C3 (amended): with `halving = 0` the diffusion-decay exponent
division is an IEEE-754 f64 division by zero, which yields NaN (at distance
0, from `-0.0 / 0.0`) or −∞ (at positive distance) rather than trapping, so
the computed i16 range degenerates to 0 respectively `long` and the
simulation continues instead of halting with a division-by-zero failure. -/
theorem halving_zero_no_trap (max long steps : ℕ) (hl : long ≤ 255) :
    diffusionI16 max long 0 steps = if steps = 0 then 0 else (long : ℤ) := by
  unfold diffusionI16
  by_cases hs : steps = 0
  · subst hs
    simp [F64.fdiv, F64.pow2, fmulFin, faddFin, F64.toI16]
  · have hpos : (0 : ℚ) < (steps : ℚ) := by
      have h0 : 0 < steps := Nat.pos_of_ne_zero hs
      exact_mod_cast h0
    have hne : ¬(-(steps : ℚ) = 0) := by
      intro hc
      rw [neg_eq_zero] at hc
      rw [hc] at hpos
      exact lt_irrefl 0 hpos
    have hnlt : ¬((0 : ℚ) < -(steps : ℚ)) := by
      intro hc
      linarith
    have hdiv : F64.fdiv (F64.fin (-(steps : ℚ))) (F64.fin 0) = F64.neginf := by
      simp only [F64.fdiv, if_true]
      rw [if_neg hne, if_neg hnlt]
    rw [hdiv, if_neg hs]
    simp only [F64.pow2, fmulFin, mul_zero, faddFin, zero_add, F64.toI16]
    rw [truncQ_natCast]
    rw [min_eq_right (show (long : ℤ) ≤ 32767 by omega)]
    rw [max_eq_right (show (-32768 : ℤ) ≤ (long : ℤ) by omega)]

/-- Claim C3 witness: at `max = 255, long = 6, halving = 0`, distance 3, the
range evaluates to `long = 6` — a definite value, not a failure. -/
theorem halving_zero_no_trap_witness :
    diffusionI16 255 6 0 3 = if 3 = 0 then 0 else ((6 : ℕ) : ℤ) :=
  halving_zero_no_trap 255 6 3 (by decide)

/-- Configuration exhibiting `halving = 0`: size 4, one seed, the other
parameters as in the repository defaults. -/
def halvingZeroCfg : Config := ⟨4, 1, 255, 6, 0, 4, 1 / 2⟩

/-- Oracle stream under which the `halving = 0` run seeds at (3,3), expands
exactly one neighbor (performing the divide-by-zero exponent computation),
and then drains. -/
def halvingZeroStream : ℕ → ℤ := fun i => if i = 7 then 0 else 999

/-- Claim C3 counterexample: an otherwise-valid configuration with
`halving = 0` does NOT halt with a division-by-zero failure: the run
completes normally and produces a two-cell grid (the exponent NaN is cast to
a zero diffusion range on the expansion step it reaches). -/
theorem halving_zero_run_completes_cex :
    makeImage halvingZeroCfg halvingZeroStream 10 =
      Except.ok (some [((2, 3), (231, 231, 231)), ((3, 3), (231, 231, 231))]) := by
  rfl

/-- Supporting lemma for the diffusion-decay amplitude: on the exponents
`-d/halving` that are integers — the cases where `2.0f64.powf` is exact and
the embedding models it faithfully — the per-channel offset range equals
`(max - long) * 2^(-d/halving) + long` truncated toward zero, and every
channel offset drawn from `-range..=range` lies in `[-range, range]`.  (At
non-integer exponents the program's range is a platform-libm `powf` value
whose rounding the embedding does not model, so no statement is made.) -/
theorem diffusion_range_formula (max long d : ℕ) (halving : ℚ) (e : ℤ)
    (hml : long ≤ max) (hmx : max ≤ 255) (hh : ¬(halving = 0)) (hle : e ≤ 0)
    (he : -(d : ℚ) / halving = ((e : ℤ) : ℚ)) :
    diffusionI16 max long halving d =
      truncQ (((max : ℚ) - (long : ℚ)) * (2 : ℚ) ^ e + (long : ℚ)) ∧
    ∀ (r : Rng) (v : ℤ) (r2 : Rng),
      genRangeI (-diffusionI16 max long halving d)
          (diffusionI16 max long halving d) r = Except.ok (v, r2) →
      -diffusionI16 max long halving d ≤ v ∧ v ≤ diffusionI16 max long halving d := by
  constructor
  · unfold diffusionI16
    have hdiv : F64.fdiv (F64.fin (-(d : ℚ))) (F64.fin halving) =
        F64.fin ((e : ℤ) : ℚ) := by
      simp only [F64.fdiv, if_neg hh]
      rw [he]
    rw [hdiv]
    have hpow : F64.pow2 (F64.fin ((e : ℤ) : ℚ)) = F64.fin ((2 : ℚ) ^ e) := by
      simp only [F64.pow2, Rat.den_intCast, if_true, Rat.num_intCast]
    rw [hpow]
    have hsub : ((u8sub max long : ℕ) : ℚ) = (max : ℚ) - (long : ℚ) := by
      have h1 : u8sub max long = max - long := by
        unfold u8sub
        omega
      rw [h1, Nat.cast_sub hml]
    simp only [fmulFin, faddFin, F64.toI16]
    rw [hsub]
    have h2e0 : (0 : ℚ) < (2 : ℚ) ^ e := by positivity
    have h2e1 : (2 : ℚ) ^ e ≤ 1 := zpow_le_one_of_nonpos₀ one_le_two hle
    have hml2 : (0 : ℚ) ≤ (max : ℚ) - (long : ℚ) := by
      have hc := (Nat.cast_le (α := ℚ)).mpr hml
      linarith
    have hq0 : (0 : ℚ) ≤ ((max : ℚ) - long) * (2 : ℚ) ^ e + long := by positivity
    have hqle : ((max : ℚ) - long) * (2 : ℚ) ^ e + long < 256 := by
      have hc1 : ((max : ℚ) - long) * (2 : ℚ) ^ e ≤ (max : ℚ) - long := by
        nlinarith
      have hcm : (max : ℚ) ≤ 255 := by exact_mod_cast hmx
      linarith
    have htr := truncQ_eq_floor_of_nonneg _ hq0
    have hfl0 : 0 ≤ ⌊((max : ℚ) - long) * (2 : ℚ) ^ e + long⌋ := Int.floor_nonneg.mpr hq0
    have hfl1 : ⌊((max : ℚ) - long) * (2 : ℚ) ^ e + long⌋ < 256 := by
      rw [Int.floor_lt]
      exact_mod_cast hqle
    rw [min_eq_right (by omega), max_eq_right (by omega)]
  · intro r v r2 hr
    exact genRangeI_bounds _ _ _ _ _ hr

/-- Instance of the amplitude lemma at `max = 255, long = 6, halving = 4`,
distance 4: the exponent is the integer −1 and the range is
`trunc(249 * 1/2 + 6) = trunc(130.5) = 130`. -/
theorem diffusion_range_formula_witness :
    diffusionI16 255 6 4 4 =
      truncQ (((255 : ℚ) - (6 : ℚ)) * (2 : ℚ) ^ (-1 : ℤ) + (6 : ℚ)) ∧
    diffusionI16 255 6 4 4 = 130 :=
  ⟨(diffusion_range_formula 255 6 4 4 (-1) (by norm_num) (by norm_num)
      (by norm_num) (by norm_num) (by norm_num)).1, by decide⟩

/-! ### Claim theorems: determinism and the progress-check panic -/

/-- Claim C8: the whole growth simulation is a pure function of the
configuration and the random stream — all randomness is drawn from the one
sequential stream, so two runs with the same configuration and the same
stream (the image of the same 64-bit seed) produce the identical finalized
grid. -/
theorem growth_deterministic (cfg : Config) (s1 s2 : ℕ → ℤ) (fuel : ℕ)
    (h : ∀ i, s1 i = s2 i) : makeImage cfg s1 fuel = makeImage cfg s2 fuel := by
  have hs : s1 = s2 := funext h
  rw [hs]

/-- Claim C8 witness: two runs of the repository's default-style
configuration on the same stream coincide. -/
theorem growth_deterministic_witness :
    makeImage ⟨4, 1, 255, 6, 4, 4, 4 / 5⟩ (fun _ => 0) 5 =
      makeImage ⟨4, 1, 255, 6, 4, 4, 4 / 5⟩ (fun _ => 0) 5 :=
  growth_deterministic ⟨4, 1, 255, 6, 4, 4, 4 / 5⟩ (fun _ => 0) (fun _ => 0) 5
    (fun _ => rfl)

theorem placeSeedsStep_ok (size : ℕ) (h : 1 ≤ size) (bd : VecMap Location Pending)
    (rng : Rng) : ∃ bd2 rng2, placeSeedsStep size bd rng = Except.ok (bd2, rng2) := by
  have hcond : ¬((size : ℤ) - 1 < 0) := by omega
  simp only [placeSeedsStep, genRangeI, if_neg hcond, Rng.next, genByte]
  exact ⟨_, _, rfl⟩

theorem placeSeeds_ok (size : ℕ) (h : 1 ≤ size) :
    ∀ (n : ℕ) (bd : VecMap Location Pending) (rng : Rng),
      ∃ bd2 rng2, placeSeeds size n bd rng = Except.ok (bd2, rng2) := by
  intro n
  induction n with
  | zero => exact fun bd rng => ⟨bd, rng, rfl⟩
  | succ m ih =>
    intro bd rng
    obtain ⟨bd1, rng1, hs⟩ := placeSeedsStep_ok size h bd rng
    simp only [placeSeeds]
    rw [hs]
    exact ih bd1 rng1

/-- Claim C10: for every configuration with `1 ≤ size ≤ 3` (so that
`size² / 10 = 0`), any seed count and any random stream, the very first
main-loop iteration evaluates `count % 0` and the program panics before any
cell is finalized — the modulo-by-zero failure is not limited to `size = 0`. -/
theorem progress_mod_zero_panics (cfg : Config) (stream : ℕ → ℤ) (fuel : ℕ)
    (h1 : 1 ≤ cfg.size) (h3 : cfg.size ≤ 3) (hf : 1 ≤ fuel) :
    makeImage cfg stream fuel =
      Except.error "attempt to calculate the remainder with a divisor of zero" := by
  obtain ⟨bd, rng1, hs⟩ :=
    placeSeeds_ok cfg.size h1 cfg.num_seeds (VecMap.new Location Pending) ⟨stream, 0⟩
  unfold makeImage
  rw [hs]
  have hdiv : (cfg.size * cfg.size) / 10 = 0 := by
    have hb : cfg.size * cfg.size ≤ 9 := by nlinarith
    omega
  rcases fuel with _ | f
  · omega
  · simp [runLoop, loopStep, hdiv]

/-- Claim C10 witness: with `size = 2`, one seed and the all-zero stream, the
run fails with the modulo-by-zero panic on the first iteration. -/
theorem progress_mod_zero_panics_witness :
    makeImage ⟨2, 1, 255, 6, 4, 4, 1 / 2⟩ (fun _ => 0) 3 =
      Except.error "attempt to calculate the remainder with a divisor of zero" :=
  progress_mod_zero_panics ⟨2, 1, 255, 6, 4, 4, 1 / 2⟩ (fun _ => 0) 3
    (by decide) (by decide) (by decide)

/-! ### Grid-commit lemmas and the loop-step grid properties -/

theorem length_setA {K V : Type} [DecidableEq K] (k : K) (v : V) (m : List (K × V)) :
    (setA k v m).length = m.length := by
  induction m with
  | nil => rfl
  | cons hd tl ih =>
    obtain ⟨k2, v2⟩ := hd
    by_cases h : k = k2 <;> simp [setA, h, ih]

theorem commitColor_keys (grid : Grid) (loc : Location) (color : Color) :
    keysOf (commitColor grid loc color) = keysOf grid ∨
    (lookupA loc grid = none ∧
      keysOf (commitColor grid loc color) = loc :: keysOf grid) := by
  unfold commitColor
  rcases ho : lookupA loc grid with _ | c1
  · right
    refine ⟨rfl, ?_⟩
    rw [keysOf_insertA, removeA_eq_of_not_mem loc grid ((lookupA_eq_none_iff loc grid).mp ho)]
  · left
    exact keysOf_setA loc (blendColor c1 color) grid

theorem commitColor_length (grid : Grid) (loc : Location) (color : Color) :
    grid.length ≤ (commitColor grid loc color).length ∧
    (commitColor grid loc color).length ≤ grid.length + 1 := by
  unfold commitColor
  rcases ho : lookupA loc grid with _ | c1
  · have hnm := (lookupA_eq_none_iff loc grid).mp ho
    simp [insertA, removeA_eq_of_not_mem loc grid hnm]
  · simp [length_setA]

theorem commitColor_length_of_none (grid : Grid) (loc : Location) (color : Color)
    (h : lookupA loc grid = none) :
    (commitColor grid loc color).length = grid.length + 1 := by
  unfold commitColor
  rw [h]
  simp [insertA, removeA_eq_of_not_mem loc grid ((lookupA_eq_none_iff loc grid).mp h)]

theorem commitColor_preserves_some (grid : Grid) (loc : Location) (color : Color)
    (loc2 : Location) (c2 : Color) (h : lookupA loc2 grid = some c2) :
    (lookupA loc2 (commitColor grid loc color)).isSome = true := by
  unfold commitColor
  rcases ho : lookupA loc grid with _ | c1
  · rw [lookupA_insertA]
    by_cases he : loc2 = loc <;> simp [he, h]
  · by_cases he : loc2 = loc
    · subst he
      rw [lookupA_setA_self loc2 _ grid]
      · rfl
      · rw [← lookupA_isSome_iff, h]
        rfl
    · rw [lookupA_setA loc2 loc _ grid he, h]
      rfl

theorem length_le_size_sq (grid : Grid) (size : ℕ) (hn : (keysOf grid).Nodup)
    (hb : ∀ k ∈ keysOf grid, k.1 < size ∧ k.2 < size) :
    grid.length ≤ size * size := by
  have hlen : grid.length = (keysOf grid).length := by simp [keysOf]
  rw [hlen, ← List.toFinset_card_of_nodup hn]
  have hsub : (keysOf grid).toFinset ⊆ Finset.range size ×ˢ Finset.range size := by
    intro x hx
    rw [List.mem_toFinset] at hx
    obtain ⟨hx1, hx2⟩ := hb x hx
    rw [Finset.mem_product, Finset.mem_range, Finset.mem_range]
    exact ⟨hx1, hx2⟩
  have hcard := Finset.card_le_card hsub
  rwa [Finset.card_product, Finset.card_range] at hcard

theorem exceptPure_eq {β : Type} (b : β) : (pure b : Except String β) = Except.ok b := rfl

theorem exceptBind_ok {β γ : Type} (b : β) (k : β → Except String γ) :
    (Except.ok b >>= k : Except String γ) = k b := rfl

theorem exceptBind_error {β γ : Type} (e : String) (k : β → Except String γ) :
    ((Except.error e : Except String β) >>= k) = Except.error e := rfl

theorem foldlM_except_inv {α β : Type} (P : β → Prop) (f : β → α → Except String β)
    (hf : ∀ b a b2, f b a = Except.ok b2 → P b → P b2) :
    ∀ (l : List α) (b b2 : β), List.foldlM f b l = Except.ok b2 → P b → P b2 := by
  intro l
  induction l with
  | nil =>
    intro b b2 h hb
    rw [List.foldlM_nil, exceptPure_eq] at h
    cases h
    exact hb
  | cons a t ih =>
    intro b b2 h hb
    rw [List.foldlM_cons] at h
    rcases hfa : f b a with e | b1
    · rw [hfa, exceptBind_error] at h
      exact absurd h (by simp)
    · rw [hfa, exceptBind_ok] at h
      exact ih b1 b2 h (hf b a b1 hfa hb)

theorem insert_modify_vec_cases {K V : Type} [DecidableEq K] (s : VecMap K V) (k : K)
    (v : V) (f : V → V) :
    ((lookupA k s.map).isSome = true ∧ (s.insert_modify k v f).vec = s.vec) ∨
    (lookupA k s.map = none ∧ (s.insert_modify k v f).vec = s.vec ++ [k]) := by
  unfold VecMap.insert_modify
  rcases ho : lookupA k s.map with _ | old
  · right
    exact ⟨rfl, rfl⟩
  · left
    exact ⟨rfl, rfl⟩

theorem rand_remove_popped {K V : Type} [DecidableEq K] (s : VecMap K V) (rng : Rng)
    (fuzz : ℚ) (k : K) (v : V) (s2 : VecMap K V) (rng2 : Rng)
    (h : s.rand_remove rng fuzz = Except.ok (some (k, v), s2, rng2)) :
    k ∈ s.vec ∧ (∀ a ∈ s2.vec, a ∈ s.vec) ∧ s2.map = removeA k s.map ∧
    s.vec.Perm (k :: s2.vec) := by
  unfold VecMap.rand_remove at h
  rcases hg : genRangeI 0 ((s.vec.length : ℤ) - 1) rng with e | ⟨i0, rng1⟩
  · rw [hg] at h
    exact absurd h (by simp)
  · rw [hg] at h
    simp only at h
    rcases hsw : swapRemove s.vec
        (if (genUnit rng1).1 < fuzz then s.vec.length - 1 else i0.toNat) with _ | ⟨key, vec2⟩
    · rw [hsw] at h
      exact absurd h (by simp)
    · rw [hsw] at h
      simp only at h
      rcases hlk : lookupA key s.map with _ | v0
      · rw [hlk] at h
        exact absurd h (by simp)
      · rw [hlk] at h
        simp only [Except.ok.injEq, Prod.mk.injEq, Option.some.injEq] at h
        obtain ⟨⟨hk, hv⟩, hs2, -⟩ := h
        subst hk
        subst hs2
        refine ⟨swapRemove_mem _ _ _ _ hsw, ?_, rfl, swapRemove_perm _ _ _ _ hsw⟩
        intro a ha
        exact swapRemove_subset _ _ _ _ hsw a ha


theorem expandInsert_cases (cfg : Config) (nl : Location) (color : Color) (steps : ℕ)
    (boundary : VecMap Location Pending) (rng : Rng)
    (out : VecMap Location Pending × Rng)
    (h : expandInsert cfg nl color steps boundary rng = Except.ok out) :
    ∃ nc : Color,
      out.1 = boundary.insert_modify nl (nc, steps + 1) (mergePending nc steps) := by
  unfold expandInsert at h
  rcases hg1 : genRangeI (-(diffusionI16 cfg.max cfg.long cfg.halving steps))
      (diffusionI16 cfg.max cfg.long cfg.halving steps) rng with e | ⟨o1, rng1⟩
  · rw [hg1] at h
    exact absurd h (by simp)
  · rw [hg1] at h
    simp only at h
    rcases hg2 : genRangeI (-(diffusionI16 cfg.max cfg.long cfg.halving steps))
        (diffusionI16 cfg.max cfg.long cfg.halving steps) rng1 with e | ⟨o2, rng2⟩
    · rw [hg2] at h
      exact absurd h (by simp)
    · rw [hg2] at h
      simp only at h
      rcases hg3 : genRangeI (-(diffusionI16 cfg.max cfg.long cfg.halving steps))
          (diffusionI16 cfg.max cfg.long cfg.halving steps) rng2 with e | ⟨o3, rng3⟩
      · rw [hg3] at h
        exact absurd h (by simp)
      · rw [hg3] at h
        simp only [Except.ok.injEq] at h
        refine ⟨(clampChannel ((color.1 : ℤ) + o1), clampChannel ((color.2.1 : ℤ) + o2),
          clampChannel ((color.2.2 : ℤ) + o3)), ?_⟩
        rw [← h]

theorem expandInsert_ok (cfg : Config) (nl : Location) (color : Color) (steps : ℕ)
    (boundary : VecMap Location Pending) (rng : Rng) :
    ∃ out, expandInsert cfg nl color steps boundary rng = Except.ok out := by
  have hd := diffusionI16_nonneg cfg.max cfg.long cfg.halving steps
  unfold expandInsert
  rw [genRangeI_of_le _ _ _ (by omega)]
  simp only
  rw [genRangeI_of_le _ _ _ (by omega)]
  simp only
  rw [genRangeI_of_le _ _ _ (by omega)]
  simp only
  exact ⟨_, rfl⟩

theorem expandDir_cases (cfg : Config) (grid : Grid) (location : Location)
    (color : Color) (steps : ℕ) (acc : VecMap Location Pending × Rng) (dir : ℤ × ℤ)
    (out : VecMap Location Pending × Rng)
    (h : expandDir cfg grid location color steps acc dir = Except.ok out) :
    out.1 = acc.1 ∨
    ∃ (nl : Location) (nc : Color),
      nl.1 < cfg.size ∧ nl.2 < cfg.size ∧
      ((lookupA nl grid).isSome = true →
        foundEmpty grid cfg.size nl cfg.smoothing = true) ∧
      out.1 = acc.1.insert_modify nl (nc, steps + 1) (mergePending nc steps) := by
  unfold expandDir at h
  by_cases h1 : 1 / 2 < (genUnit acc.2).1
  · rw [if_pos h1] at h
    cases h
    left
    rfl
  · rw [if_neg h1] at h
    by_cases h2 : ((location.1 : ℤ) + dir.1 < 0 ∨ (cfg.size : ℤ) ≤ (location.1 : ℤ) + dir.1 ∨
        (location.2 : ℤ) + dir.2 < 0 ∨ (cfg.size : ℤ) ≤ (location.2 : ℤ) + dir.2)
    · rw [if_pos h2] at h
      cases h
      left
      rfl
    · rw [if_neg h2] at h
      by_cases h3 : (lookupA (((location.1 : ℤ) + dir.1).toNat,
            ((location.2 : ℤ) + dir.2).toNat) grid).isSome = true ∧
          foundEmpty grid cfg.size
            (((location.1 : ℤ) + dir.1).toNat, ((location.2 : ℤ) + dir.2).toNat)
            cfg.smoothing = false
      · rw [if_pos h3] at h
        cases h
        left
        rfl
      · rw [if_neg h3] at h
        obtain ⟨nc, hout⟩ := expandInsert_cases _ _ _ _ _ _ _ h
        push_neg at h2
        right
        refine ⟨_, nc, by omega, by omega, ?_, hout⟩
        intro hsome
        rcases hfe : foundEmpty grid cfg.size
            (((location.1 : ℤ) + dir.1).toNat, ((location.2 : ℤ) + dir.2).toNat)
            cfg.smoothing with _ | _
        · exact absurd ⟨hsome, hfe⟩ h3
        · rfl

theorem expandAll_bounded (cfg : Config) (grid : Grid) (location : Location)
    (color : Color) (steps : ℕ) (bd : VecMap Location Pending) (rng : Rng)
    (out : VecMap Location Pending × Rng)
    (h : expandAll cfg grid location color steps bd rng = Except.ok out)
    (hb : ∀ k ∈ bd.vec, k.1 < cfg.size ∧ k.2 < cfg.size) :
    ∀ k ∈ out.1.vec, k.1 < cfg.size ∧ k.2 < cfg.size := by
  refine foldlM_except_inv
    (fun b => ∀ k ∈ b.1.vec, k.1 < cfg.size ∧ k.2 < cfg.size)
    (expandDir cfg grid location color steps) ?_ directions (bd, rng) out h hb
  intro b a b2 hstep hP
  rcases expandDir_cases cfg grid location color steps b a b2 hstep with
    hsame | ⟨nl, nc, hb1, hb2, -, hout⟩
  · rw [hsame]
    exact hP
  · rw [hout]
    rcases insert_modify_vec_cases b.1 nl (nc, steps + 1) (mergePending nc steps) with
      ⟨-, hv⟩ | ⟨-, hv⟩
    · rw [hv]
      exact hP
    · rw [hv]
      intro k hk
      rcases List.mem_append.mp hk with hk1 | hk2
      · exact hP k hk1
      · rw [List.mem_singleton] at hk2
        subst hk2
        exact ⟨hb1, hb2⟩

/-- Invariant of the loop state used for the coverage bound: grid keys are
distinct and in bounds, and the frontier's order-sequence keys are in
bounds. -/
def StateInv (size : ℕ) (st : LoopState) : Prop :=
  (keysOf st.grid).Nodup ∧
  (∀ k ∈ keysOf st.grid, k.1 < size ∧ k.2 < size) ∧
  (∀ k ∈ st.boundary.vec, k.1 < size ∧ k.2 < size)

/-- Claim C7: across every continuing iteration of the main loop the
Finalized Grid is append-only — a location that is mapped stays mapped (it is
only possibly re-blended) — its entry count is non-decreasing, and the entry
count never exceeds `size * size`; the state invariant is preserved. -/
theorem grid_monotone (cfg : Config) (st st2 : LoopState)
    (h : loopStep cfg st = Except.ok (Sum.inl st2)) (hI : StateInv cfg.size st) :
    (∀ (loc : Location) (c : Color), lookupA loc st.grid = some c →
      (lookupA loc st2.grid).isSome = true) ∧
    st.grid.length ≤ st2.grid.length ∧
    st2.grid.length ≤ cfg.size * cfg.size ∧
    StateInv cfg.size st2 := by
  obtain ⟨hnd, hgb, hbb⟩ := hI
  unfold loopStep at h
  by_cases hdiv : (cfg.size * cfg.size) / 10 = 0
  · rw [if_pos hdiv] at h
    exact absurd h (by simp)
  · rw [if_neg hdiv] at h
    rcases hemp : st.boundary.is_empty with e | b
    · rw [hemp] at h
      exact absurd h (by simp)
    · rw [hemp] at h
      rcases b with _ | _
      · rcases hrr : VecMap.rand_remove st.boundary st.rng cfg.fuzz with e | ⟨popped, bd2, rng2⟩
        · rw [hrr] at h
          exact absurd h (by simp)
        · rw [hrr] at h
          simp only at h
          rcases popped with _ | ⟨loc, c, steps⟩
          · exact absurd h (by simp)
          · simp only at h
            rcases hea : expandAll cfg (commitColor st.grid loc c) loc c steps bd2 rng2
                with e | ⟨bd3, rng3⟩
            · rw [hea] at h
              exact absurd h (by simp)
            · rw [hea] at h
              simp only [Except.ok.injEq, Sum.inl.injEq] at h
              subst h
              obtain ⟨hmem, hsub, -, -⟩ := rand_remove_popped _ _ _ _ _ _ _ hrr
              have hlocb := hbb loc hmem
              have hkeys := commitColor_keys st.grid loc c
              have hnd2 : (keysOf (commitColor st.grid loc c)).Nodup := by
                rcases hkeys with hk | ⟨hnone, hk⟩
                · rwa [hk]
                · rw [hk, List.nodup_cons]
                  exact ⟨(lookupA_eq_none_iff loc st.grid).mp hnone, hnd⟩
              have hgb2 : ∀ k ∈ keysOf (commitColor st.grid loc c),
                  k.1 < cfg.size ∧ k.2 < cfg.size := by
                rcases hkeys with hk | ⟨-, hk⟩
                · rw [hk]
                  exact hgb
                · rw [hk]
                  intro k hk2
                  rcases List.mem_cons.mp hk2 with hk3 | hk3
                  · subst hk3
                    exact hlocb
                  · exact hgb k hk3
              refine ⟨?_, ?_, ?_, hnd2, hgb2, ?_⟩
              · intro loc2 c2 hl
                exact commitColor_preserves_some st.grid loc c loc2 c2 hl
              · exact (commitColor_length st.grid loc c).1
              · exact length_le_size_sq _ cfg.size hnd2 hgb2
              · exact expandAll_bounded cfg _ loc c steps bd2 rng2 (bd3, rng3) hea
                  (fun k hk => hbb k (hsub k hk))
      · exact absurd h (by simp)

/-- Claim C7 witness: a concrete loop iteration (seed state with one pending
cell, constant-999 stream) finalizes the popped seed; the grid length grows
from 0 to 1 and respects the 4 * 4 bound. -/
theorem grid_monotone_witness :
    (⟨[], ⟨[(0, 0)], [((0, 0), ((7, 7, 7), 0))]⟩, ⟨fun _ => 999, 0⟩, 0⟩ :
        LoopState).grid.length ≤
      (⟨[((0, 0), (7, 7, 7))], ⟨[], []⟩, ⟨fun _ => 999, 6⟩, 1⟩ :
        LoopState).grid.length ∧
    (⟨[((0, 0), (7, 7, 7))], ⟨[], []⟩, ⟨fun _ => 999, 6⟩, 1⟩ :
        LoopState).grid.length ≤ 4 * 4 :=
  ⟨(grid_monotone ⟨4, 1, 255, 6, 4, 4, 1 / 2⟩
      ⟨[], ⟨[(0, 0)], [((0, 0), ((7, 7, 7), 0))]⟩, ⟨fun _ => 999, 0⟩, 0⟩
      ⟨[((0, 0), (7, 7, 7))], ⟨[], []⟩, ⟨fun _ => 999, 6⟩, 1⟩
      (by rfl) ⟨by decide, by decide, by decide⟩).2.1,
   (grid_monotone ⟨4, 1, 255, 6, 4, 4, 1 / 2⟩
      ⟨[], ⟨[(0, 0)], [((0, 0), ((7, 7, 7), 0))]⟩, ⟨fun _ => 999, 0⟩, 0⟩
      ⟨[((0, 0), (7, 7, 7))], ⟨[], []⟩, ⟨fun _ => 999, 6⟩, 1⟩
      (by rfl) ⟨by decide, by decide, by decide⟩).2.2.1⟩

/-! ### Termination of the main loop for a closed smoothing gate -/

theorem vecMap_insert_vec {K V : Type} [DecidableEq K] (s : VecMap K V) (k : K) (v : V) :
    (s.insert k v).2.vec = s.vec ∨ (s.insert k v).2.vec = s.vec ++ [k] := by
  unfold VecMap.insert
  rcases lookupA k s.map with _ | old <;> simp

theorem foundEmpty_of_nonpos (grid : Grid) (size : ℕ) (nl : Location) (smoothing : ℤ)
    (hsm : smoothing ≤ 0) (hsome : (lookupA nl grid).isSome = true) :
    foundEmpty grid size nl smoothing = false := by
  rcases lt_or_eq_of_le hsm with hlt | heq
  · have hz : (2 * smoothing + 1).toNat = 0 := by omega
    unfold foundEmpty smoothingOffsets
    rw [hz]
    rfl
  · subst heq
    rcases hlk : lookupA nl grid with _ | v
    · rw [hlk] at hsome
      exact absurd hsome (by simp)
    · have hoff : smoothingOffsets 0 = [0] := by decide
      unfold foundEmpty
      rw [hoff]
      simp [hlk]

theorem wf_isEmpty_eq {K V : Type} (s : VecMap K V) (h : s.vec.length = s.map.length) :
    s.vec.isEmpty = s.map.isEmpty := by
  rcases hv : s.vec with _ | ⟨a, t⟩ <;> rcases hm : s.map with _ | ⟨b, u⟩ <;>
    rw [hv, hm] at h <;> simp_all

theorem foldlM_except_ok {α β : Type} (f : β → α → Except String β)
    (hf : ∀ b a, ∃ b2, f b a = Except.ok b2) :
    ∀ (l : List α) (b : β), ∃ b2, List.foldlM f b l = Except.ok b2 := by
  intro l
  induction l with
  | nil =>
    intro b
    exact ⟨b, rfl⟩
  | cons a t ih =>
    intro b
    obtain ⟨b1, hb1⟩ := hf b a
    obtain ⟨b2, hb2⟩ := ih b1
    refine ⟨b2, ?_⟩
    rw [List.foldlM_cons, hb1, exceptBind_ok]
    exact hb2

theorem expandDir_ok (cfg : Config) (grid : Grid) (location : Location) (color : Color)
    (steps : ℕ) (acc : VecMap Location Pending × Rng) (dir : ℤ × ℤ) :
    ∃ out, expandDir cfg grid location color steps acc dir = Except.ok out := by
  unfold expandDir
  by_cases h1 : 1 / 2 < (genUnit acc.2).1
  · rw [if_pos h1]
    exact ⟨_, rfl⟩
  · rw [if_neg h1]
    by_cases h2 : ((location.1 : ℤ) + dir.1 < 0 ∨ (cfg.size : ℤ) ≤ (location.1 : ℤ) + dir.1 ∨
        (location.2 : ℤ) + dir.2 < 0 ∨ (cfg.size : ℤ) ≤ (location.2 : ℤ) + dir.2)
    · rw [if_pos h2]
      exact ⟨_, rfl⟩
    · rw [if_neg h2]
      by_cases h3 : (lookupA (((location.1 : ℤ) + dir.1).toNat,
            ((location.2 : ℤ) + dir.2).toNat) grid).isSome = true ∧
          foundEmpty grid cfg.size
            (((location.1 : ℤ) + dir.1).toNat, ((location.2 : ℤ) + dir.2).toNat)
            cfg.smoothing = false
      · rw [if_pos h3]
        exact ⟨_, rfl⟩
      · rw [if_neg h3]
        exact expandInsert_ok cfg _ color steps acc.1 (genUnit acc.2).2

theorem expandAll_ok (cfg : Config) (grid : Grid) (location : Location) (color : Color)
    (steps : ℕ) (bd : VecMap Location Pending) (rng : Rng) :
    ∃ out, expandAll cfg grid location color steps bd rng = Except.ok out := by
  unfold expandAll
  exact foldlM_except_ok _ (fun b a => expandDir_ok cfg grid location color steps b a)
    directions (bd, rng)

/-- Strong loop invariant for the termination proof: the frontier is
well-formed with in-bounds keys, the grid has distinct in-bounds keys, and
every pending frontier location is not yet finalized. -/
def TermInv (size : ℕ) (st : LoopState) : Prop :=
  st.boundary.WF ∧
  (∀ k ∈ st.boundary.vec, k.1 < size ∧ k.2 < size) ∧
  (keysOf st.grid).Nodup ∧
  (∀ k ∈ keysOf st.grid, k.1 < size ∧ k.2 < size) ∧
  (∀ k ∈ st.boundary.vec, lookupA k st.grid = none)

theorem expandAll_term_inv (cfg : Config) (grid : Grid) (location : Location)
    (color : Color) (steps : ℕ) (bd : VecMap Location Pending) (rng : Rng)
    (out : VecMap Location Pending × Rng) (hsm : cfg.smoothing ≤ 0)
    (h : expandAll cfg grid location color steps bd rng = Except.ok out)
    (hwf : bd.WF) (hb : ∀ k ∈ bd.vec, k.1 < cfg.size ∧ k.2 < cfg.size)
    (hu : ∀ k ∈ bd.vec, lookupA k grid = none) :
    out.1.WF ∧ (∀ k ∈ out.1.vec, k.1 < cfg.size ∧ k.2 < cfg.size) ∧
    (∀ k ∈ out.1.vec, lookupA k grid = none) := by
  refine foldlM_except_inv
    (fun b => b.1.WF ∧ (∀ k ∈ b.1.vec, k.1 < cfg.size ∧ k.2 < cfg.size) ∧
      (∀ k ∈ b.1.vec, lookupA k grid = none))
    (expandDir cfg grid location color steps) ?_ directions (bd, rng) out h ⟨hwf, hb, hu⟩
  intro b a b2 hstep hP
  obtain ⟨hPwf, hPb, hPu⟩ := hP
  rcases expandDir_cases cfg grid location color steps b a b2 hstep with
    hsame | ⟨nl, nc, hb1, hb2, hgate, hout⟩
  · rw [hsame]
    exact ⟨hPwf, hPb, hPu⟩
  · have hnone : lookupA nl grid = none := by
      rcases hlk : lookupA nl grid with _ | v
      · rfl
      · have hsome : (lookupA nl grid).isSome = true := by
          rw [hlk]
          rfl
        have hfe := foundEmpty_of_nonpos grid cfg.size nl cfg.smoothing hsm hsome
        rw [hgate hsome] at hfe
        exact absurd hfe (by simp)
    rw [hout]
    refine ⟨vecMapWF_insert_modify b.1 nl (nc, steps + 1) (mergePending nc steps) hPwf,
      ?_, ?_⟩ <;>
      rcases insert_modify_vec_cases b.1 nl (nc, steps + 1) (mergePending nc steps) with
        ⟨-, hv⟩ | ⟨-, hv⟩ <;> rw [hv]
    · exact hPb
    · intro k hk
      rcases List.mem_append.mp hk with hk1 | hk2
      · exact hPb k hk1
      · rw [List.mem_singleton] at hk2
        subst hk2
        exact ⟨hb1, hb2⟩
    · exact hPu
    · intro k hk
      rcases List.mem_append.mp hk with hk1 | hk2
      · exact hPu k hk1
      · rw [List.mem_singleton] at hk2
        subst hk2
        exact hnone

theorem loopStep_term (cfg : Config) (st : LoopState) (h4 : 4 ≤ cfg.size)
    (hsm : cfg.smoothing ≤ 0) (hI : TermInv cfg.size st) :
    (st.boundary.vec = [] ∧ loopStep cfg st = Except.ok (Sum.inr st.grid)) ∨
    (∃ st2, loopStep cfg st = Except.ok (Sum.inl st2) ∧ TermInv cfg.size st2 ∧
      st2.grid.length = st.grid.length + 1) := by
  obtain ⟨hwf, hbb, hgnd, hgb, hunf⟩ := hI
  have hdiv : ¬((cfg.size * cfg.size) / 10 = 0) := by
    have h16 : 16 ≤ cfg.size * cfg.size := by nlinarith
    omega
  have hemp_eq : st.boundary.vec.isEmpty = st.boundary.map.isEmpty :=
    wf_isEmpty_eq st.boundary hwf.length_eq
  by_cases hv : st.boundary.vec = []
  · left
    refine ⟨hv, ?_⟩
    unfold loopStep
    rw [if_neg hdiv]
    have hie : st.boundary.is_empty = Except.ok true := by
      unfold VecMap.is_empty
      rw [if_pos hemp_eq, hv]
      rfl
    rw [hie]
  · right
    obtain ⟨loc, v, bd2, rng2, hrr⟩ :=
      vecMap_rand_remove_some st.boundary st.rng cfg.fuzz ⟨hwf.1, hwf.2⟩ hv
    rcases v with ⟨c, steps⟩
    obtain ⟨hloc_mem, hsub, -, hperm⟩ := rand_remove_popped _ _ _ _ _ _ _ hrr
    obtain ⟨out, hea⟩ := expandAll_ok cfg (commitColor st.grid loc c) loc c steps bd2 rng2
    rcases out with ⟨bd3, rng3⟩
    have hlocn : lookupA loc st.grid = none := hunf loc hloc_mem
    have hcommit : commitColor st.grid loc c = insertA loc c st.grid := by
      unfold commitColor
      rw [hlocn]
    refine ⟨⟨commitColor st.grid loc c, bd3, rng3, st.count + 1⟩, ?_, ?_, ?_⟩
    · unfold loopStep
      rw [if_neg hdiv]
      have hie : st.boundary.is_empty = Except.ok false := by
        unfold VecMap.is_empty
        rw [if_pos hemp_eq]
        rcases hvv : st.boundary.vec with _ | ⟨a, t⟩
        · exact absurd hvv hv
        · rfl
      simp only [hie]
      simp only [hrr]
      simp only [hea]
    · have hbd2wf : bd2.WF := vecMapWF_rand_remove _ _ _ _ _ _ hwf hrr
      have hbd2b : ∀ k ∈ bd2.vec, k.1 < cfg.size ∧ k.2 < cfg.size :=
        fun k hk => hbb k (hsub k hk)
      have hlocnot : loc ∉ bd2.vec := by
        have hnd2 := (hperm.nodup_iff).mp hwf.1
        rw [List.nodup_cons] at hnd2
        exact hnd2.1
      have hbd2u : ∀ k ∈ bd2.vec, lookupA k (commitColor st.grid loc c) = none := by
        intro k hk
        have hkne : ¬(k = loc) := by
          intro he
          rw [he] at hk
          exact hlocnot hk
        rw [hcommit, lookupA_insertA, if_neg hkne]
        exact hunf k (hsub k hk)
      obtain ⟨h3wf, h3b, h3u⟩ := expandAll_term_inv cfg _ loc c steps bd2 rng2 (bd3, rng3)
        hsm hea hbd2wf hbd2b hbd2u
      have hkeys2 : keysOf (commitColor st.grid loc c) = loc :: keysOf st.grid := by
        rw [hcommit, keysOf_insertA,
          removeA_eq_of_not_mem loc st.grid ((lookupA_eq_none_iff loc st.grid).mp hlocn)]
      refine ⟨h3wf, h3b, ?_, ?_, h3u⟩
      · show (keysOf (commitColor st.grid loc c)).Nodup
        rw [hkeys2, List.nodup_cons]
        exact ⟨(lookupA_eq_none_iff loc st.grid).mp hlocn, hgnd⟩
      · show ∀ k ∈ keysOf (commitColor st.grid loc c), k.1 < cfg.size ∧ k.2 < cfg.size
        rw [hkeys2]
        intro k hk
        rcases List.mem_cons.mp hk with hk1 | hk1
        · rw [hk1]
          exact hbb loc hloc_mem
        · exact hgb k hk1
    · exact commitColor_length_of_none st.grid loc c hlocn

theorem runLoop_term (cfg : Config) (h4 : 4 ≤ cfg.size) (hsm : cfg.smoothing ≤ 0) :
    ∀ (fuel : ℕ) (st : LoopState), TermInv cfg.size st →
      cfg.size * cfg.size + 1 ≤ st.grid.length + fuel →
      ∃ g, runLoop cfg fuel st = Except.ok (some g) := by
  intro fuel
  induction fuel with
  | zero =>
    intro st hI hf
    have hle := length_le_size_sq st.grid cfg.size hI.2.2.1 hI.2.2.2.1
    omega
  | succ f ih =>
    intro st hI hf
    rcases loopStep_term cfg st h4 hsm hI with ⟨-, hstep⟩ | ⟨st2, hstep, hI2, hlen⟩
    · refine ⟨st.grid, ?_⟩
      unfold runLoop
      rw [hstep]
    · obtain ⟨g, hg⟩ := ih st2 hI2 (by omega)
      refine ⟨g, ?_⟩
      unfold runLoop
      rw [hstep]
      exact hg

theorem placeSeeds_inv (size : ℕ) :
    ∀ (n : ℕ) (bd : VecMap Location Pending) (rng : Rng) (bd2 : VecMap Location Pending)
      (rng2 : Rng), placeSeeds size n bd rng = Except.ok (bd2, rng2) →
      bd.WF → (∀ k ∈ bd.vec, k.1 < size ∧ k.2 < size) →
      bd2.WF ∧ (∀ k ∈ bd2.vec, k.1 < size ∧ k.2 < size) := by
  intro n
  induction n with
  | zero =>
    intro bd rng bd2 rng2 h0 hwf hb
    simp only [placeSeeds, Except.ok.injEq, Prod.mk.injEq] at h0
    obtain ⟨hbd, -⟩ := h0
    rw [← hbd]
    exact ⟨hwf, hb⟩
  | succ m ih =>
    intro bd rng bd2 rng2 hp hwf hb
    simp only [placeSeeds] at hp
    rcases hs : placeSeedsStep size bd rng with e | ⟨bd1, rng1⟩
    · rw [hs] at hp
      exact absurd hp (by simp)
    · rw [hs] at hp
      simp only at hp
      have hfacts : bd1.WF ∧ (∀ k ∈ bd1.vec, k.1 < size ∧ k.2 < size) := by
        unfold placeSeedsStep at hs
        rcases hg1 : genRangeI 0 ((size : ℤ) - 1) rng with e | ⟨r0, rngA⟩
        · rw [hg1] at hs
          exact absurd hs (by simp)
        · rw [hg1] at hs
          simp only at hs
          rcases hg2 : genRangeI 0 ((size : ℤ) - 1) rngA with e | ⟨c0, rngB⟩
          · rw [hg2] at hs
            exact absurd hs (by simp)
          · rw [hg2] at hs
            simp only [Except.ok.injEq, Prod.mk.injEq] at hs
            obtain ⟨hbd1, -⟩ := hs
            have hr := genRangeI_bounds _ _ _ _ _ hg1
            have hc := genRangeI_bounds _ _ _ _ _ hg2
            rw [← hbd1]
            constructor
            · exact vecMapWF_insert bd _ _ hwf
            · intro k hk
              rcases vecMap_insert_vec bd (r0.toNat, c0.toNat)
                  (((genByte rngB).1, (genByte (genByte rngB).2).1,
                    (genByte (genByte (genByte rngB).2).2).1), 0) with hveq | hveq
              · rw [hveq] at hk
                exact hb k hk
              · rw [hveq] at hk
                rcases List.mem_append.mp hk with hk1 | hk2
                · exact hb k hk1
                · rw [List.mem_singleton] at hk2
                  rw [hk2]
                  constructor
                  · omega
                  · omega
      exact ih bd1 rng1 bd2 rng2 hp hfacts.1 hfacts.2

/-- Claim C9 (amended): for every configuration with `size ≥ 4` (so the
progress check's divisor `size²/10` is nonzero) and a non-positive smoothing
radius (so the gate never re-admits finalized cells), and every seed count
and random stream, the main loop terminates within `size² + 1` iterations:
the Frontier Set drains and the simulation completes with a grid. -/
theorem growth_terminates_smoothing_nonpos (cfg : Config) (stream : ℕ → ℤ)
    (h4 : 4 ≤ cfg.size) (hsm : cfg.smoothing ≤ 0) :
    ∃ g, makeImage cfg stream (cfg.size * cfg.size + 1) = Except.ok (some g) := by
  unfold makeImage
  obtain ⟨bd, rng1, hs⟩ := placeSeeds_ok cfg.size (by omega) cfg.num_seeds
    (VecMap.new Location Pending) ⟨stream, 0⟩
  rw [hs]
  obtain ⟨hwf, hb⟩ := placeSeeds_inv cfg.size cfg.num_seeds _ _ _ _ hs vecMapWF_new
    (by intro k hk; simp [VecMap.new] at hk)
  exact runLoop_term cfg h4 hsm (cfg.size * cfg.size + 1) ⟨[], bd, rng1, 0⟩
    ⟨hwf, hb, by simp [keysOf], by simp [keysOf], fun k _ => rfl⟩ (by omega)

/-- Claim C9 witness: a size-4 one-seed run with smoothing 0 completes within
17 iterations on the all-zero stream. -/
theorem growth_terminates_witness :
    ∃ g, makeImage ⟨4, 1, 255, 6, 4, 0, 1 / 2⟩ (fun _ => 0) (4 * 4 + 1) =
      Except.ok (some g) :=
  growth_terminates_smoothing_nonpos ⟨4, 1, 255, 6, 4, 0, 1 / 2⟩ (fun _ => 0)
    (by decide) (by decide)



/-! ### A random stream on which a positive smoothing radius loops forever -/

/-- Configuration for the non-termination run: size 4, one seed, zero
diffusion amplitudes (so colors never change), smoothing radius 4. -/
def lassoCfg : Config := ⟨4, 1, 0, 0, 4, 4, 1 / 2⟩

/-- One period of the adversarial draw sequence (18 draws = two loop
iterations of the two-state cycle). -/
def lassoPattern : List ℤ := [0, 0, 999, 999, 0, 0, 0, 0, 999, 0, 0, 0, 0, 0, 0, 999, 999, 999]

/-- The adversarial stream: a seed prefix, two set-up iterations, then the
18-draw cycle forever.  (0 means a coin that proceeds, 999 one that skips.) -/
def lassoStream : ℕ → ℤ :=
  fun i =>
    if i < 5 then 0
    else if i < 14 then [0, 0, 999, 999, 0, 0, 0, 0, 999].getD (i - 5) 0
    else if i < 23 then [0, 0, 0, 0, 0, 0, 999, 999, 999].getD (i - 14) 0
    else lassoPattern.getD ((i - 23) % 18) 0

/-- The two cells that stay finalized for the whole cycle. -/
def lassoGrid : Grid := [((1, 0), (0, 0, 0)), ((0, 0), (0, 0, 0))]

/-- First state of the two-state cycle: cell (0,0) pending at distance `d`. -/
def stateA (d cnt n : ℕ) : LoopState :=
  ⟨lassoGrid, ⟨[(0, 0)], [((0, 0), ((0, 0, 0), d))]⟩, ⟨lassoStream, 23 + 18 * n⟩, cnt⟩

/-- Second state of the two-state cycle: cell (1,0) pending at distance `d`. -/
def stateB (d cnt n : ℕ) : LoopState :=
  ⟨lassoGrid, ⟨[(1, 0)], [((1, 0), ((0, 0, 0), d))]⟩, ⟨lassoStream, 23 + 18 * n + 9⟩, cnt⟩

theorem lassoStream_cycle (n j : ℕ) (hj : j < 18) :
    lassoStream (23 + 18 * n + j) = lassoPattern.getD j 0 := by
  unfold lassoStream
  rw [if_neg (by omega), if_neg (by omega), if_neg (by omega)]
  congr 1
  omega

theorem genRangeI_zero (r : Rng) :
    genRangeI (-(0 : ℤ)) 0 r = Except.ok (0, ⟨r.stream, r.pos + 1⟩) := by
  rw [show (-(0 : ℤ)) = 0 from by norm_num, genRangeI_of_le 0 0 r (le_refl 0)]
  norm_num

theorem rand_remove_singleton {K V : Type} [DecidableEq K] (k : K) (v : V) (rng : Rng)
    (fuzz : ℚ) :
    (⟨[k], [(k, v)]⟩ : VecMap K V).rand_remove rng fuzz =
      Except.ok (some (k, v), ⟨[], []⟩, ⟨rng.stream, rng.pos + 1 + 1⟩) := by
  unfold VecMap.rand_remove
  have h1 : ((([k] : List K).length : ℤ) - 1) = 0 := by simp
  rw [h1, genRangeI_of_le 0 0 rng (le_refl 0)]
  simp only
  have h2 : (0 + rng.stream rng.pos % (0 - 0 + 1)).toNat = 0 := by
    norm_num
  rw [h2]
  have h3 : ([k] : List K).length - 1 = 0 := by simp
  rw [h3, ite_self]
  rw [show swapRemove [k] 0 = some (k, ([] : List K)) from rfl]
  simp [lookupA, removeA, genUnit, Rng.next]

theorem expandDir_oob (cfg : Config) (grid : Grid) (location : Location) (color : Color)
    (steps : ℕ) (acc : VecMap Location Pending × Rng) (dir : ℤ × ℤ)
    (hoob : (location.1 : ℤ) + dir.1 < 0 ∨ (cfg.size : ℤ) ≤ (location.1 : ℤ) + dir.1 ∨
      (location.2 : ℤ) + dir.2 < 0 ∨ (cfg.size : ℤ) ≤ (location.2 : ℤ) + dir.2) :
    expandDir cfg grid location color steps acc dir =
      Except.ok (acc.1, (genUnit acc.2).2) := by
  unfold expandDir
  by_cases h1 : 1 / 2 < (genUnit acc.2).1
  · rw [if_pos h1]
  · rw [if_neg h1, if_pos hoob]

theorem expandDir_coinskip (cfg : Config) (grid : Grid) (location : Location)
    (color : Color) (steps : ℕ) (acc : VecMap Location Pending × Rng) (dir : ℤ × ℤ)
    (h : 1 / 2 < (genUnit acc.2).1) :
    expandDir cfg grid location color steps acc dir =
      Except.ok (acc.1, (genUnit acc.2).2) := by
  unfold expandDir
  rw [if_pos h]

theorem expandDir_proceed (cfg : Config) (grid : Grid) (location : Location)
    (color : Color) (steps : ℕ) (acc : VecMap Location Pending × Rng) (dir : ℤ × ℤ)
    (hcoin : ¬(1 / 2 < (genUnit acc.2).1))
    (hin : ¬((location.1 : ℤ) + dir.1 < 0 ∨ (cfg.size : ℤ) ≤ (location.1 : ℤ) + dir.1 ∨
      (location.2 : ℤ) + dir.2 < 0 ∨ (cfg.size : ℤ) ≤ (location.2 : ℤ) + dir.2))
    (hgate : ¬((lookupA (((location.1 : ℤ) + dir.1).toNat,
        ((location.2 : ℤ) + dir.2).toNat) grid).isSome = true ∧
      foundEmpty grid cfg.size (((location.1 : ℤ) + dir.1).toNat,
        ((location.2 : ℤ) + dir.2).toNat) cfg.smoothing = false)) :
    expandDir cfg grid location color steps acc dir =
      expandInsert cfg (((location.1 : ℤ) + dir.1).toNat,
        ((location.2 : ℤ) + dir.2).toNat) color steps acc.1 (genUnit acc.2).2 := by
  unfold expandDir
  rw [if_neg hcoin, if_neg hin, if_neg hgate]

theorem expandInsert_zero (cfg : Config) (hm : cfg.max = 0) (hl : cfg.long = 0)
    (nl : Location) (color : Color) (steps : ℕ) (bd : VecMap Location Pending)
    (rng : Rng) :
    expandInsert cfg nl color steps bd rng =
      Except.ok (bd.insert_modify nl
        ((clampChannel (color.1 : ℤ), clampChannel (color.2.1 : ℤ),
          clampChannel (color.2.2 : ℤ)), steps + 1)
        (mergePending (clampChannel (color.1 : ℤ), clampChannel (color.2.1 : ℤ),
          clampChannel (color.2.2 : ℤ)) steps), ⟨rng.stream, rng.pos + 1 + 1 + 1⟩) := by
  unfold expandInsert
  rw [hm, hl, diffusionI16_zero_zero]
  rw [genRangeI_zero]
  simp only
  rw [genRangeI_zero]
  simp only
  rw [genRangeI_zero]
  simp only
  simp

theorem is_empty_singleton {K V : Type} (k : K) (p : K × V) :
    (⟨[k], [p]⟩ : VecMap K V).is_empty = Except.ok false := rfl

theorem loopStep_singleton (cfg : Config) (g : Grid) (k : Location) (c : Color)
    (d : ℕ) (rng : Rng) (cnt : ℕ) (hdiv : ¬(cfg.size * cfg.size / 10 = 0))
    (bd3 : VecMap Location Pending) (rng3 : Rng)
    (hea : expandAll cfg (commitColor g k c) k c d ⟨[], []⟩
        ⟨rng.stream, rng.pos + 1 + 1⟩ = Except.ok (bd3, rng3)) :
    loopStep cfg ⟨g, ⟨[k], [(k, (c, d))]⟩, rng, cnt⟩ =
      Except.ok (Sum.inl ⟨commitColor g k c, bd3, rng3, cnt + 1⟩) := by
  unfold loopStep
  rw [if_neg hdiv]
  simp only [is_empty_singleton, rand_remove_singleton k (c, d) rng cfg.fuzz, hea]

theorem lasso_stepA (d cnt n : ℕ) :
    loopStep lassoCfg (stateA d cnt n) = Except.ok (Sum.inl (stateB (d + 1) (cnt + 1) n)) := by
  have hcommit : commitColor lassoGrid (0, 0) (0, 0, 0) = lassoGrid := by decide
  have hv4 : lassoStream (23 + 18 * n + 4) = 0 := by
    rw [lassoStream_cycle n 4 (by norm_num)]
    rfl
  have hv8 : lassoStream (23 + 18 * n + 8) = 999 := by
    rw [lassoStream_cycle n 8 (by norm_num)]
    rfl
  have hd1 : expandDir lassoCfg lassoGrid (0, 0) (0, 0, 0) d
      ((⟨[], []⟩ : VecMap Location Pending), ⟨lassoStream, 23 + 18 * n + 2⟩) (-1, 0) =
      Except.ok (⟨[], []⟩, ⟨lassoStream, 23 + 18 * n + 3⟩) :=
    expandDir_oob lassoCfg lassoGrid (0, 0) (0, 0, 0) d _ (-1, 0) (by decide)
  have hd2 : expandDir lassoCfg lassoGrid (0, 0) (0, 0, 0) d
      ((⟨[], []⟩ : VecMap Location Pending), ⟨lassoStream, 23 + 18 * n + 3⟩) (0, -1) =
      Except.ok (⟨[], []⟩, ⟨lassoStream, 23 + 18 * n + 4⟩) :=
    expandDir_oob lassoCfg lassoGrid (0, 0) (0, 0, 0) d _ (0, -1) (by decide)
  have hd3 : expandDir lassoCfg lassoGrid (0, 0) (0, 0, 0) d
      ((⟨[], []⟩ : VecMap Location Pending), ⟨lassoStream, 23 + 18 * n + 4⟩) (1, 0) =
      Except.ok (⟨[(1, 0)], [((1, 0), ((0, 0, 0), d + 1))]⟩,
        ⟨lassoStream, 23 + 18 * n + 8⟩) := by
    rw [expandDir_proceed lassoCfg lassoGrid (0, 0) (0, 0, 0) d _ (1, 0)
      (by simp only [genUnit, Rng.next, hv4]; norm_num) (by decide) (by decide)]
    rw [expandInsert_zero lassoCfg rfl rfl]
    rfl
  have hd4 : expandDir lassoCfg lassoGrid (0, 0) (0, 0, 0) d
      ((⟨[(1, 0)], [((1, 0), ((0, 0, 0), d + 1))]⟩ : VecMap Location Pending),
        ⟨lassoStream, 23 + 18 * n + 8⟩) (0, 1) =
      Except.ok (⟨[(1, 0)], [((1, 0), ((0, 0, 0), d + 1))]⟩,
        ⟨lassoStream, 23 + 18 * n + 9⟩) :=
    expandDir_coinskip lassoCfg lassoGrid (0, 0) (0, 0, 0) d _ (0, 1)
      (by simp only [genUnit, Rng.next, hv8]; norm_num)
  have hall : expandAll lassoCfg lassoGrid (0, 0) (0, 0, 0) d ⟨[], []⟩
      ⟨lassoStream, 23 + 18 * n + 2⟩ =
      Except.ok (⟨[(1, 0)], [((1, 0), ((0, 0, 0), d + 1))]⟩,
        ⟨lassoStream, 23 + 18 * n + 9⟩) := by
    unfold expandAll directions
    rw [List.foldlM_cons, hd1, exceptBind_ok, List.foldlM_cons, hd2, exceptBind_ok,
      List.foldlM_cons, hd3, exceptBind_ok, List.foldlM_cons, hd4, exceptBind_ok,
      List.foldlM_nil]
    rfl
  have hstep := loopStep_singleton lassoCfg lassoGrid (0, 0) (0, 0, 0) d
    ⟨lassoStream, 23 + 18 * n⟩ cnt (by decide)
    ⟨[(1, 0)], [((1, 0), ((0, 0, 0), d + 1))]⟩ ⟨lassoStream, 23 + 18 * n + 9⟩
    (by rw [hcommit]; exact hall)
  rw [hcommit] at hstep
  exact hstep

theorem lasso_stepB (d cnt n : ℕ) :
    loopStep lassoCfg (stateB d cnt n) =
      Except.ok (Sum.inl (stateA (d + 1) (cnt + 1) (n + 1))) := by
  have hcommit : commitColor lassoGrid (1, 0) (0, 0, 0) = lassoGrid := by decide
  have hv11 : lassoStream (23 + 18 * n + 11) = 0 := by
    rw [lassoStream_cycle n 11 (by norm_num)]
    rfl
  have hv16 : lassoStream (23 + 18 * n + 16) = 999 := by
    rw [lassoStream_cycle n 16 (by norm_num)]
    rfl
  have hv17 : lassoStream (23 + 18 * n + 17) = 999 := by
    rw [lassoStream_cycle n 17 (by norm_num)]
    rfl
  have hd1 : expandDir lassoCfg lassoGrid (1, 0) (0, 0, 0) d
      ((⟨[], []⟩ : VecMap Location Pending), ⟨lassoStream, 23 + 18 * n + 11⟩) (-1, 0) =
      Except.ok (⟨[(0, 0)], [((0, 0), ((0, 0, 0), d + 1))]⟩,
        ⟨lassoStream, 23 + 18 * n + 15⟩) := by
    rw [expandDir_proceed lassoCfg lassoGrid (1, 0) (0, 0, 0) d _ (-1, 0)
      (by simp only [genUnit, Rng.next, hv11]; norm_num) (by decide) (by decide)]
    rw [expandInsert_zero lassoCfg rfl rfl]
    rfl
  have hd2 : expandDir lassoCfg lassoGrid (1, 0) (0, 0, 0) d
      ((⟨[(0, 0)], [((0, 0), ((0, 0, 0), d + 1))]⟩ : VecMap Location Pending),
        ⟨lassoStream, 23 + 18 * n + 15⟩) (0, -1) =
      Except.ok (⟨[(0, 0)], [((0, 0), ((0, 0, 0), d + 1))]⟩,
        ⟨lassoStream, 23 + 18 * n + 16⟩) :=
    expandDir_oob lassoCfg lassoGrid (1, 0) (0, 0, 0) d _ (0, -1) (by decide)
  have hd3 : expandDir lassoCfg lassoGrid (1, 0) (0, 0, 0) d
      ((⟨[(0, 0)], [((0, 0), ((0, 0, 0), d + 1))]⟩ : VecMap Location Pending),
        ⟨lassoStream, 23 + 18 * n + 16⟩) (1, 0) =
      Except.ok (⟨[(0, 0)], [((0, 0), ((0, 0, 0), d + 1))]⟩,
        ⟨lassoStream, 23 + 18 * n + 17⟩) :=
    expandDir_coinskip lassoCfg lassoGrid (1, 0) (0, 0, 0) d _ (1, 0)
      (by simp only [genUnit, Rng.next, hv16]; norm_num)
  have hd4 : expandDir lassoCfg lassoGrid (1, 0) (0, 0, 0) d
      ((⟨[(0, 0)], [((0, 0), ((0, 0, 0), d + 1))]⟩ : VecMap Location Pending),
        ⟨lassoStream, 23 + 18 * n + 17⟩) (0, 1) =
      Except.ok (⟨[(0, 0)], [((0, 0), ((0, 0, 0), d + 1))]⟩,
        ⟨lassoStream, 23 + 18 * n + 18⟩) :=
    expandDir_coinskip lassoCfg lassoGrid (1, 0) (0, 0, 0) d _ (0, 1)
      (by simp only [genUnit, Rng.next, hv17]; norm_num)
  have hall : expandAll lassoCfg lassoGrid (1, 0) (0, 0, 0) d ⟨[], []⟩
      ⟨lassoStream, 23 + 18 * n + 11⟩ =
      Except.ok (⟨[(0, 0)], [((0, 0), ((0, 0, 0), d + 1))]⟩,
        ⟨lassoStream, 23 + 18 * n + 18⟩) := by
    unfold expandAll directions
    rw [List.foldlM_cons, hd1, exceptBind_ok, List.foldlM_cons, hd2, exceptBind_ok,
      List.foldlM_cons, hd3, exceptBind_ok, List.foldlM_cons, hd4, exceptBind_ok,
      List.foldlM_nil]
    rfl
  have hstep := loopStep_singleton lassoCfg lassoGrid (1, 0) (0, 0, 0) d
    ⟨lassoStream, 23 + 18 * n + 9⟩ cnt (by decide)
    ⟨[(0, 0)], [((0, 0), ((0, 0, 0), d + 1))]⟩ ⟨lassoStream, 23 + 18 * n + 18⟩
    (by rw [hcommit]; exact hall)
  rw [hcommit] at hstep
  exact hstep
theorem lasso_runLoop (fuel : ℕ) :
    ∀ (d cnt n : ℕ),
      runLoop lassoCfg fuel (stateA d cnt n) = Except.ok none ∧
      runLoop lassoCfg fuel (stateB d cnt n) = Except.ok none := by
  induction fuel with
  | zero =>
    intro d cnt n
    exact ⟨rfl, rfl⟩
  | succ f ih =>
    intro d cnt n
    constructor
    · unfold runLoop
      rw [lasso_stepA d cnt n]
      exact (ih (d + 1) (cnt + 1) n).2
    · unfold runLoop
      rw [lasso_stepB d cnt n]
      exact (ih (d + 1) (cnt + 1) (n + 1)).1

/-- The lasso run never finishes: with any amount of fuel the main loop is
still running — it neither breaks (the frontier never drains) nor panics. -/
def LassoRunsForever : Prop :=
  ∀ fuel : ℕ, makeImage lassoCfg lassoStream fuel = Except.ok none

theorem lasso_runs_forever : LassoRunsForever := by
  intro fuel
  match fuel with
  | 0 => rfl
  | 1 => rfl
  | 2 => rfl
  | (f + 3) =>
    show makeImage lassoCfg lassoStream (f + 3) = Except.ok none
    unfold makeImage
    rw [show placeSeeds lassoCfg.size lassoCfg.num_seeds (VecMap.new Location Pending)
      ⟨lassoStream, 0⟩ = Except.ok ((⟨[(0, 0)], [((0, 0), ((0, 0, 0), 0))]⟩ :
        VecMap Location Pending), ⟨lassoStream, 5⟩) from rfl]
    show runLoop lassoCfg (f + 3)
      ⟨[], ⟨[(0, 0)], [((0, 0), ((0, 0, 0), 0))]⟩, ⟨lassoStream, 5⟩, 0⟩ = Except.ok none
    unfold runLoop
    rw [show loopStep lassoCfg ⟨[], ⟨[(0, 0)], [((0, 0), ((0, 0, 0), 0))]⟩,
      ⟨lassoStream, 5⟩, 0⟩ = Except.ok (Sum.inl ⟨[((0, 0), (0, 0, 0))],
        ⟨[(1, 0)], [((1, 0), ((0, 0, 0), 1))]⟩, ⟨lassoStream, 14⟩, 1⟩) from rfl]
    show runLoop lassoCfg (f + 2) ⟨[((0, 0), (0, 0, 0))],
      ⟨[(1, 0)], [((1, 0), ((0, 0, 0), 1))]⟩, ⟨lassoStream, 14⟩, 1⟩ = Except.ok none
    unfold runLoop
    rw [show loopStep lassoCfg ⟨[((0, 0), (0, 0, 0))], ⟨[(1, 0)],
      [((1, 0), ((0, 0, 0), 1))]⟩, ⟨lassoStream, 14⟩, 1⟩ =
      Except.ok (Sum.inl (stateA 2 2 0)) from rfl]
    show runLoop lassoCfg (f + 1) (stateA 2 2 0) = Except.ok none
    exact (lasso_runLoop (f + 1) 2 2 0).1

/-- Claim C9 counterexample: the claim as stated fails in two independent
ways.  With `size = 1` (included in "size ≥ 1") the very first iteration
panics on the modulo-by-zero progress check, so the run halts abnormally.
And with a size-4 configuration whose smoothing radius is the repository's
positive default, there is a random stream on which the gate keeps
re-admitting the two finalized cells and the loop runs forever. -/
theorem growth_termination_cex :
    (makeImage ⟨1, 1, 255, 6, 4, 4, 1 / 2⟩ (fun _ => 0) 10 =
      Except.error "attempt to calculate the remainder with a divisor of zero") ∧
    LassoRunsForever :=
  ⟨by rfl, lasso_runs_forever⟩
